import Mathlib

/-!
Verification of the autonomous task orchestrator's intelligence components
against its specification.

Conventions of the shallow embedding:
* Python `float` is modelled as `ℚ` (exact rational arithmetic).
* Python `dict` is modelled as an insertion-ordered association list
  (`List (key × value)`); Python guarantees distinct keys, which theorems
  take as a hypothesis where it matters.
* Python exceptions are modelled with `Option`: `none` marks a raise.
* Wall-clock timestamps are modelled as rationals supplied by the caller.
-/

set_option maxHeartbeats 1000000

namespace Orchestrator

/-! ## Execution graph data model (src/intelligence/execution_graph.py) -/

/-- `ExecutionStep` dataclass: a single step in an execution graph.
`estimated_duration` is `Optional[float]`, `alternative_step` is
`Optional[str]`. The dataclass validation (`priority >= 1`, status in the
valid set) lives in `stepValid` below. -/
structure ExecutionStep where
  step_id : String
  name : String
  priority : Int
  status : String
  estimated_duration : Option ℚ
  alternative_step : Option String
  deriving DecidableEq, Repr

/-- The `__post_init__` checks of `ExecutionStep`: they raise unless
`priority >= 1` and the status is one of the four valid statuses. -/
def stepValid (s : ExecutionStep) : Bool :=
  (1 ≤ s.priority) &&
    (s.status ∈ ["pending", "in_progress", "completed", "failed"])

/-- `ExecutionGraph` dataclass. `edges` is the adjacency dict
`step_id -> list of step_ids that depend on it`. -/
structure ExecutionGraph where
  task_id : String
  steps : List ExecutionStep
  edges : List (String × List String)
  parallelizable_groups : List (List String)
  created_at : String
  version : Int
  deriving DecidableEq, Repr

/-- The step-id list `[s.step_id for s in steps]`. -/
def stepIds (steps : List ExecutionStep) : List String :=
  steps.map (fun s => s.step_id)

/-- Python dict lookup `edges.get(node, [])`; on the association list the
first matching key wins (Python dicts have unique keys, so this is the key). -/
def edgeLookup (edges : List (String × List String)) (node : String) :
    List String :=
  match edges.find? (fun p => p.1 == node) with
  | some p => p.2
  | none => []

/-- Inserting a key into a Python dict keeps the first-insertion position:
appending only when absent. -/
def insertKey (ks : List String) (k : String) : List String :=
  if k ∈ ks then ks else ks ++ [k]

/-- Key order of the `in_degree` dict built by `validate` and
`get_execution_order`: first one key per step (in step order, duplicates
collapsed), then any edge destination not yet present, in iteration order
(`in_degree[dst] = in_degree.get(dst, 0) + 1` inserts missing keys). -/
def indegKeys (g : ExecutionGraph) : List String :=
  g.edges.foldl (fun ks p => p.2.foldl insertKey ks)
    ((stepIds g.steps).foldl insertKey [])

/-- Value of the fully built `in_degree` dict at `v`: the number of times
`v` occurs as an edge destination (`0` for step ids that are never a
destination, matching their explicit initialisation to `0`). -/
def indegInit (edges : List (String × List String)) (v : String) : Int :=
  (edges.map (fun p => (p.2.count v : Int))).sum

/-- One iteration of `in_degree[dst] -= 1; if in_degree[dst] == 0:
queue.append(dst)`: the state is the in-degree map plus the list of
newly ready nodes appended so far. -/
def decrOne (st : (String → Int) × List String) (dst : String) :
    (String → Int) × List String :=
  let d := st.1 dst - 1
  (fun k => if k = dst then d else st.1 k,
   if d = 0 then st.2 ++ [dst] else st.2)

/-- The whole `for dst in self.edges.get(node, [])` decrement loop. -/
def decrAll (indeg : String → Int) (dsts : List String) :
    (String → Int) × List String :=
  dsts.foldl decrOne (indeg, [])

/-- The topological-sort loop of `validate`, returning the sequence of
visited nodes (the Python code only counts them: `visited` is the length
of this trace). The loop is driven by fuel; each node enters the queue at
most once (a node is enqueued exactly when its stored in-degree reaches
`0`, which happens at most once since in-degrees only decrease), so at
most `(indegKeys g).length` iterations ever run and that fuel reproduces
the Python `while queue:` loop exactly. -/
def kahnCount (edges : List (String × List String)) :
    Nat → (String → Int) → List String → List String
  | _, _, [] => []
  | 0, _, _ :: _ => []
  | fuel + 1, indeg, node :: rest =>
    let p := decrAll indeg (edgeLookup edges node)
    node :: kahnCount edges fuel p.1 (rest ++ p.2)

/-- `ExecutionGraph.validate`, as a Boolean (`false` models the raised
`ValueError`): at least one step, every edge endpoint is a step id, and
the Kahn visit covers exactly `len(self.steps)` nodes. -/
def ExecutionGraph.validate (g : ExecutionGraph) : Bool :=
  !g.steps.isEmpty &&
  g.edges.all (fun p =>
    (stepIds g.steps).contains p.1 &&
      p.2.all (fun d => (stepIds g.steps).contains d)) &&
  ((kahnCount g.edges (indegKeys g).length (indegInit g.edges)
      ((indegKeys g).filter (fun sid => indegInit g.edges sid == 0))).length
    == g.steps.length)

/-- The dict comprehension `step_map = {s.step_id: s for s in steps}`:
on duplicate ids the last occurrence wins, hence the reversed search. -/
def stepMapFind (steps : List ExecutionStep) (sid : String) :
    Option ExecutionStep :=
  steps.reverse.find? (fun s => s.step_id == sid)

/-- The sort key `step_map[sid].priority` (a missing id would raise a
`KeyError` in Python; it cannot occur on validated graphs, and `0` is a
don't-care default). -/
def prioOf (steps : List ExecutionStep) (sid : String) : Int :=
  match stepMapFind steps sid with
  | some s => s.priority
  | none => 0

/-- The comparison underlying `queue.sort(key=lambda sid:
step_map[sid].priority)`; Python's sort is stable, as is `mergeSort`. -/
def prioLe (steps : List ExecutionStep) (a b : String) : Bool :=
  decide (prioOf steps a ≤ prioOf steps b)

/-- The emission loop of `get_execution_order`, returning visited step ids:
pop the head of the priority-sorted queue, decrement the successors,
append the newly ready nodes and re-sort. Fuel as in `kahnCount`. -/
def kahnOrder (edges : List (String × List String))
    (steps : List ExecutionStep) :
    Nat → (String → Int) → List String → List String
  | _, _, [] => []
  | 0, _, _ :: _ => []
  | fuel + 1, indeg, node :: rest =>
    let p := decrAll indeg (edgeLookup edges node)
    node :: kahnOrder edges steps fuel p.1
      ((rest ++ p.2).mergeSort (prioLe steps))

/-- `ExecutionGraph.get_execution_order`: initial queue is the zero
in-degree ids sorted by priority; the result maps visited ids back through
`step_map` (total on validated graphs; Python would raise `KeyError`
otherwise, modelled by the silent `filterMap` drop). -/
def ExecutionGraph.get_execution_order (g : ExecutionGraph) :
    List ExecutionStep :=
  let q0 := ((indegKeys g).filter
      (fun sid => indegInit g.edges sid == 0)).mergeSort (prioLe g.steps)
  (kahnOrder g.edges g.steps (indegKeys g).length (indegInit g.edges)
      q0).filterMap (stepMapFind g.steps)

/-! ### Ghost state for reasoning about the two Kahn loops

`remIndeg edges em v` is the in-degree of `v` counting only edges whose
source is not in the emitted list `em`; it is the value the mutable
`in_degree` dict holds for `v` after the nodes of `em` have been popped. -/

/-- In-degree of `v` restricted to edges with not-yet-emitted source. -/
def remIndeg (edges : List (String × List String)) (em : List String)
    (v : String) : Int :=
  ((edges.filter (fun p => decide (p.1 ∉ em))).map
    (fun p => (p.2.count v : Int))).sum

/-- Loop invariant shared by the `validate` count loop and the
`get_execution_order` emission loop: `em` is the emitted prefix, `q` the
queue, `indeg` the current in-degree map. -/
structure KahnInv (edges : List (String × List String)) (ids : List String)
    (indeg : String → Int) (q em : List String) : Prop where
  nodup : (em ++ q).Nodup
  subset : ∀ v ∈ em ++ q, v ∈ ids
  indeg_eq : ∀ v, indeg v = remIndeg edges em v
  queue_iff : ∀ v ∈ ids, (v ∈ q ↔ (v ∉ em ∧ remIndeg edges em v = 0))
  preds_done : ∀ (k : Nat) (hk : k < em.length) (u : String),
    0 < (edgeLookup edges u).count (em.get ⟨k, hk⟩) → u ∈ em.take k

/-- What holds of the emitted trace when either loop drains its queue:
the trace is duplicate-free, contained in the step ids, every edge into an
emitted node comes from a strictly earlier emitted node, and every
unemitted node still has positive remaining in-degree. -/
structure KahnEnd (edges : List (String × List String)) (ids : List String)
    (em : List String) : Prop where
  nodup : em.Nodup
  subset : ∀ v ∈ em, v ∈ ids
  preds_done : ∀ (k : Nat) (hk : k < em.length) (u : String),
    0 < (edgeLookup edges u).count (em.get ⟨k, hk⟩) → u ∈ em.take k
  stuck : ∀ v ∈ ids, v ∉ em → remIndeg edges em v ≠ 0

/-- Priority bookkeeping for the emission loop: when the `k`-th node was
emitted, it had minimal priority among all then-ready nodes (`w` unemitted
with all predecessors emitted). -/
def PrioHist (steps : List ExecutionStep)
    (edges : List (String × List String)) (ids : List String)
    (em : List String) : Prop :=
  ∀ (k : Nat) (hk : k < em.length) (w : String), w ∈ ids →
    w ∉ em.take k → remIndeg edges (em.take k) w = 0 →
    prioOf steps (em.get ⟨k, hk⟩) ≤ prioOf steps w

/-- The queue of the emission loop is kept sorted by step priority. -/
def SortedQ (steps : List ExecutionStep) (q : List String) : Prop :=
  q.Pairwise (fun a b => prioLe steps a b = true)

/-! ## JSON serialization (`to_json` / `from_json`)

`to_json` produces `json.dumps(data)` for the dict `data` built in the
source; `from_json` applies `json.loads` and rebuilds the graph. Python's
`json.loads` is a left inverse of `json.dumps` on the JSON value fragment
used here (strings, exact numbers, null, arrays, string-keyed objects), so
the round trip is modelled on the JSON value tree itself. -/

/-- JSON values as produced by `json.dumps` / consumed by `json.loads`. -/
inductive Json where
  | null : Json
  | bool (b : Bool) : Json
  | num (q : ℚ) : Json
  | str (s : String) : Json
  | arr (xs : List Json) : Json
  | obj (fields : List (String × Json)) : Json

/-- `data[key]` / `data.get(key)` on a parsed JSON object. -/
def jsonGet (fields : List (String × Json)) (key : String) : Option Json :=
  match fields.find? (fun p => p.1 == key) with
  | some p => some p.2
  | none => none

/-- `dataclasses.asdict` of an `ExecutionStep` (field order is declaration
order; `None` becomes JSON `null`). -/
def stepToJson (s : ExecutionStep) : Json :=
  Json.obj
    [("step_id", Json.str s.step_id),
     ("name", Json.str s.name),
     ("priority", Json.num (s.priority : ℚ)),
     ("status", Json.str s.status),
     ("estimated_duration",
       match s.estimated_duration with
       | some q => Json.num q
       | none => Json.null),
     ("alternative_step",
       match s.alternative_step with
       | some a => Json.str a
       | none => Json.null)]

/-- `ExecutionStep(**s)` applied to a parsed step object: reads each field
(`KeyError`/shape mismatch and the `__post_init__` validation raise,
modelled by `none`). -/
def stepFromJson (j : Json) : Option ExecutionStep :=
  match j with
  | Json.obj fields =>
    match jsonGet fields "step_id", jsonGet fields "name",
        jsonGet fields "priority", jsonGet fields "status",
        jsonGet fields "estimated_duration",
        jsonGet fields "alternative_step" with
    | some (Json.str sid), some (Json.str nm), some (Json.num pq),
        some (Json.str st), some ed, some alt =>
      if pq.den = 1 then
        let dur : Option (Option ℚ) :=
          match ed with
          | Json.null => some none
          | Json.num q => some (some q)
          | _ => none
        let altStep : Option (Option String) :=
          match alt with
          | Json.null => some none
          | Json.str a => some (some a)
          | _ => none
        match dur, altStep with
        | some d, some a =>
          let s : ExecutionStep :=
            { step_id := sid, name := nm, priority := pq.num, status := st,
              estimated_duration := d, alternative_step := a }
          if stepValid s then some s else none
        | _, _ => none
      else none
    | _, _, _, _, _, _ => none
  | _ => none

/-- The dict built by `ExecutionGraph.to_json` (before `json.dumps`). -/
def ExecutionGraph.to_json (g : ExecutionGraph) : Json :=
  Json.obj
    [("task_id", Json.str g.task_id),
     ("steps", Json.arr (g.steps.map stepToJson)),
     ("edges", Json.obj (g.edges.map (fun p =>
        (p.1, Json.arr (p.2.map Json.str))))),
     ("parallelizable_groups", Json.arr (g.parallelizable_groups.map
        (fun grp => Json.arr (grp.map Json.str)))),
     ("created_at", Json.str g.created_at),
     ("version", Json.num (g.version : ℚ))]

/-- Parse one adjacency entry: a JSON array of step-id strings. -/
def edgeListFromJson (j : Json) : Option (List String) :=
  match j with
  | Json.arr xs =>
    xs.mapM (fun x =>
      match x with
      | Json.str s => some s
      | _ => none)
  | _ => none

/-- `ExecutionGraph.from_json` applied to parsed JSON (a `KeyError` on
`task_id`/`steps`, a failing `ExecutionStep(**s)`, or a shape mismatch
raises, modelled by `none`; `edges`, `parallelizable_groups`,
`created_at` and `version` use `.get` defaults). -/
def ExecutionGraph.from_json (j : Json) : Option ExecutionGraph :=
  match j with
  | Json.obj fields =>
    match jsonGet fields "task_id", jsonGet fields "steps" with
    | some (Json.str tid), some (Json.arr stepJs) =>
      match stepJs.mapM stepFromJson with
      | some steps =>
        let edgesParsed : Option (List (String × List String)) :=
          match jsonGet fields "edges" with
          | none => some []
          | some (Json.obj efields) =>
            efields.mapM (fun p =>
              match edgeListFromJson p.2 with
              | some ds => some (p.1, ds)
              | none => none)
          | some _ => none
        let groupsParsed : Option (List (List String)) :=
          match jsonGet fields "parallelizable_groups" with
          | none => some []
          | some (Json.arr gs) => gs.mapM edgeListFromJson
          | some _ => none
        let createdAt : Option String :=
          match jsonGet fields "created_at" with
          | none => some ""
          | some (Json.str c) => some c
          | some _ => none
        let ver : Option Int :=
          match jsonGet fields "version" with
          | none => some 1
          | some (Json.num vq) => if vq.den = 1 then some vq.num else none
          | some _ => none
        match edgesParsed, groupsParsed, createdAt, ver with
        | some es, some gs, some ca, some v =>
          some { task_id := tid, steps := steps, edges := es,
                 parallelizable_groups := gs, created_at := ca, version := v }
        | _, _, _, _ => none
      | none => none
    | _, _ => none
  | _ => none

/-- Concrete graph used to witness the execution-order theorem. -/
def gW : ExecutionGraph :=
  { task_id := "t1",
    steps := [⟨"a", "step a", 2, "pending", none, none⟩,
              ⟨"b", "step b", 1, "pending", none, none⟩,
              ⟨"c", "step c", 3, "pending", none, none⟩],
    edges := [("a", ["c"]), ("b", ["c"])],
    parallelizable_groups := [], created_at := "", version := 1 }

/-! ## Learning engine (src/intelligence/learning_engine.py)

`LearningMetrics` holds the per-task-type aggregates; the wall-clock
`last_updated` string is not modelled. A sequence of `record` calls for one
task type threads the metrics through `_update_aggregates` (the on-disk
meta.json round trip through `query` is the identity on these fields). -/

/-- The numeric and counter fields of the `LearningMetrics` dataclass. -/
structure LearningMetrics where
  task_type : String
  total_count : Nat
  success_count : Nat
  failure_count : Nat
  avg_duration_ms : ℚ
  duration_variance : ℚ
  retry_success_count : Nat
  retry_total_count : Nat
  sla_breach_count : Nat
  deriving DecidableEq, Repr

/-- `LearningMetrics(task_type=task_type)`: all aggregates start at zero. -/
def LearningMetrics.init (t : String) : LearningMetrics :=
  ⟨t, 0, 0, 0, 0, 0, 0, 0, 0⟩

/-- The record dict built by `LearningEngine.record` (the timestamp is not
modelled). -/
structure TaskRecord where
  duration_ms : ℚ
  outcome : String
  retry_count : Nat
  retry_succeeded : Bool
  sla_breached : Bool
  deriving DecidableEq, Repr

/-- `LearningEngine._update_aggregates`: Welford update of mean/variance
plus the conditional counters. -/
def update_aggregates (m : LearningMetrics) (r : TaskRecord) :
    LearningMetrics :=
  let n : Nat := m.total_count + 1
  let duration := r.duration_ms
  let old_mean := m.avg_duration_ms
  let new_mean := old_mean + (duration - old_mean) / (n : ℚ)
  let new_variance : ℚ :=
    if 1 < n then
      (m.duration_variance * ((n : ℚ) - 1)
        + (duration - old_mean) * (duration - new_mean)) / (n : ℚ)
    else 0
  { m with
    total_count := n,
    avg_duration_ms := new_mean,
    duration_variance := new_variance,
    success_count :=
      if r.outcome = "success" then m.success_count + 1 else m.success_count,
    failure_count :=
      if r.outcome = "success" then m.failure_count else m.failure_count + 1,
    retry_total_count :=
      if 0 < r.retry_count then m.retry_total_count + 1
      else m.retry_total_count,
    retry_success_count :=
      if 0 < r.retry_count && r.retry_succeeded then m.retry_success_count + 1
      else m.retry_success_count,
    sla_breach_count :=
      if r.sla_breached then m.sla_breach_count + 1 else m.sla_breach_count }

/-- A sequence of `LearningEngine.record` calls for task type `t` starting
from no prior data: each call appends the raw record and folds
`_update_aggregates` over the stored metrics. -/
def record_sequence (t : String) (records : List TaskRecord) :
    LearningMetrics :=
  records.foldl update_aggregates (LearningMetrics.init t)

/-- Concrete sample sequence used to witness the Welford theorem. -/
def recordsW : List TaskRecord :=
  [⟨4, "success", 0, false, false⟩, ⟨8, "failed", 1, true, true⟩]

/-! ## SLA predictor (src/intelligence/sla_predictor.py)

`math.sqrt` and the erf-based `_normal_cdf` are transcendental; they are
modelled as function parameters `sqrtFn`/`cdf` (every theorem below holds
for all of them, the counterexample uses a branch that never calls them).
`predicted_at` (wall clock) is not modelled. -/

/-- The `SLAPrediction` dataclass. -/
structure SLAPrediction where
  task_id : String
  task_type : String
  elapsed_minutes : ℚ
  predicted_duration : ℚ
  sla_threshold : ℚ
  probability : ℚ
  exceeds_threshold : Bool
  recommendation : String
  deriving DecidableEq, Repr

/-- The `historical_data` dict fields that `predict` reads. -/
structure HistData where
  avg_duration_ms : ℚ
  duration_variance : ℚ
  total_count : Nat
  deriving DecidableEq, Repr

/-- `SLAPredictor.MIN_DATA_POINTS`. -/
def MIN_DATA_POINTS : Nat := 3

/-- `SLAPredictor._make_prediction`: recommendation bucketing, alert flag,
then the `SLAPrediction.__post_init__` validation (probability in [0,1]
and positive threshold; a violation raises, modelled by `none`). -/
def make_prediction (alertThreshold : ℚ) (task_id task_type : String)
    (elapsed threshold predicted_duration probability : ℚ) :
    Option SLAPrediction :=
  let recommendation :=
    if probability < 3/10 then "on_track"
    else if probability ≤ 7/10 then "monitor"
    else "at_risk"
  let exceeds := alertThreshold < probability
  if 0 ≤ probability ∧ probability ≤ 1 ∧ 0 < threshold then
    some ⟨task_id, task_type, elapsed, predicted_duration, threshold,
      probability, exceeds, recommendation⟩
  else none

/-- `SLAPredictor._predict_statistical`. -/
def predict_statistical (sqrtFn cdf : ℚ → ℚ) (alertThreshold : ℚ)
    (task_id task_type : String) (elapsed threshold : ℚ) (data : HistData) :
    Option SLAPrediction :=
  let avg_minutes := data.avg_duration_ms / 60000
  if data.duration_variance ≤ 0 then
    make_prediction alertThreshold task_id task_type elapsed threshold
      avg_minutes (if avg_minutes < threshold then 0 else 1)
  else
    let stdev_minutes := sqrtFn data.duration_variance / 60000
    let probability0 : ℚ :=
      if stdev_minutes = 0 then (if avg_minutes < threshold then 0 else 1)
      else 1 - cdf ((threshold - elapsed) / stdev_minutes)
    make_prediction alertThreshold task_id task_type elapsed threshold
      avg_minutes (max 0 (min 1 probability0))

/-- `SLAPredictor._predict_fallback`. -/
def predict_fallback (alertThreshold : ℚ) (task_id task_type : String)
    (elapsed threshold : ℚ) : Option SLAPrediction :=
  let ratio := if 0 < threshold then elapsed / threshold else 0
  make_prediction alertThreshold task_id task_type elapsed threshold
    threshold (max 0 (min 1 ratio))

/-- `SLAPredictor.predict`. -/
def predict (sqrtFn cdf : ℚ → ℚ) (alertThreshold : ℚ)
    (task_id task_type : String) (elapsed_minutes sla_threshold : ℚ)
    (historical_data : Option HistData) : Option SLAPrediction :=
  if sla_threshold ≤ elapsed_minutes then
    make_prediction alertThreshold task_id task_type elapsed_minutes
      sla_threshold elapsed_minutes 1
  else
    match historical_data with
    | some data =>
      if MIN_DATA_POINTS ≤ data.total_count then
        predict_statistical sqrtFn cdf alertThreshold task_id task_type
          elapsed_minutes sla_threshold data
      else
        predict_fallback alertThreshold task_id task_type elapsed_minutes
          sla_threshold
    | none =>
      predict_fallback alertThreshold task_id task_type elapsed_minutes
        sla_threshold

/-! ## Risk engine (src/intelligence/risk_engine.py)

The four weights come from configuration (`risk_weight_*`, defaults
0.3/0.2/0.3/0.2) and are arbitrary rationals here. `computed_at` (wall
clock) is not modelled. -/

/-- The `RiskScore` dataclass. -/
structure RiskScore where
  task_id : String
  sla_risk : ℚ
  complexity : ℚ
  impact : ℚ
  failure_rate : ℚ
  composite_score : ℚ
  deriving DecidableEq, Repr

/-- `COMPLEXITY_MAP.get(classification, 0.33)`. -/
def complexityMap (classification : String) : ℚ :=
  if classification = "simple" then 33/100
  else if classification = "complex" then 67/100
  else if classification = "manual_review" then 1
  else 33/100

/-- `IMPACT_MAP.get(priority, 0.50)`. -/
def impactMap (priority : String) : ℚ :=
  if priority = "low" then 1/4
  else if priority = "normal" then 1/2
  else if priority = "high" then 3/4
  else if priority = "critical" then 1
  else 1/2

/-- The metadata fields `compute_score` reads (`.get` with defaults). -/
structure RiskMeta where
  classification : Option String
  priority : Option String
  sla_risk : Option ℚ
  deriving DecidableEq, Repr

/-- The historical-data field `compute_score` reads. -/
structure RiskHist where
  failure_rate : Option ℚ
  deriving DecidableEq, Repr

/-- The `RiskScore.__post_init__` check: every scalar in [0,1]. -/
def riskScoreValid (s : RiskScore) : Bool :=
  decide (0 ≤ s.sla_risk ∧ s.sla_risk ≤ 1) &&
  decide (0 ≤ s.complexity ∧ s.complexity ≤ 1) &&
  decide (0 ≤ s.impact ∧ s.impact ≤ 1) &&
  decide (0 ≤ s.failure_rate ∧ s.failure_rate ≤ 1) &&
  decide (0 ≤ s.composite_score ∧ s.composite_score ≤ 1)

/-- `failure_rate = 0.0; if historical_data: failure_rate =
float(historical_data.get("failure_rate", 0.0))` (an absent or empty dict
is falsy). -/
def histFailureRate (historical_data : Option RiskHist) : ℚ :=
  match historical_data with
  | some h => h.failure_rate.getD 0
  | none => 0

/-- `RiskEngine.compute_score` (the raised `ValueError` of the `RiskScore`
constructor is modelled by `none`). -/
def compute_score (w_sla w_complexity w_impact w_failure : ℚ)
    (task_id : String) (task_metadata : RiskMeta)
    (historical_data : Option RiskHist) : Option RiskScore :=
  let classification := task_metadata.classification.getD "simple"
  let priority := task_metadata.priority.getD "normal"
  let sla_risk := task_metadata.sla_risk.getD 0
  let complexity := complexityMap classification
  let impact := impactMap priority
  let failure_rate := histFailureRate historical_data
  let composite0 := sla_risk * w_sla + complexity * w_complexity
    + impact * w_impact + failure_rate * w_failure
  let composite := max 0 (min 1 composite0)
  let score : RiskScore :=
    ⟨task_id, sla_risk, complexity, impact, failure_rate, composite⟩
  if riskScoreValid score then some score else none

/-! ## Self-healing engine (src/intelligence/self_healing.py)

`execute_fn` is an optional callable that either returns a Bool or raises
(`Except.error` carries `str(e)`); `duration_ms` is wall-clock time,
modelled as 0 (the claims do not concern it). `_attempt_partial` also
mutates `failed_step.status`; the mutation does not affect the returned
attempt list. -/

/-- The `RecoveryAttempt` dataclass (timestamp not modelled). -/
structure RecoveryAttempt where
  task_id : String
  step_id : String
  attempt_number : Nat
  strategy : String
  outcome : String
  duration_ms : ℚ
  error_detail : Option String
  deriving DecidableEq, Repr

/-- `SelfHealingEngine._attempt_retry`. -/
def attempt_retry (task_id : String) (failed_step : ExecutionStep)
    (attempt_num : Nat)
    (execute_fn : Option (ExecutionStep → Except String Bool)) :
    RecoveryAttempt :=
  match execute_fn with
  | some f =>
    match f failed_step with
    | Except.ok true =>
      ⟨task_id, failed_step.step_id, attempt_num, "retry", "success", 0, none⟩
    | Except.ok false =>
      ⟨task_id, failed_step.step_id, attempt_num, "retry", "failed", 0, none⟩
    | Except.error e =>
      ⟨task_id, failed_step.step_id, attempt_num, "retry", "failed", 0,
        some e⟩
  | none =>
    ⟨task_id, failed_step.step_id, attempt_num, "retry", "failed", 0, none⟩

/-- `SelfHealingEngine._attempt_alternative` (executes the alternative
step; the recorded `step_id` stays the failed step's). -/
def attempt_alternative (task_id : String)
    (failed_step alt_step : ExecutionStep) (attempt_num : Nat)
    (execute_fn : Option (ExecutionStep → Except String Bool)) :
    RecoveryAttempt :=
  match execute_fn with
  | some f =>
    match f alt_step with
    | Except.ok true =>
      ⟨task_id, failed_step.step_id, attempt_num, "alternative", "success",
        0, none⟩
    | Except.ok false =>
      ⟨task_id, failed_step.step_id, attempt_num, "alternative", "failed",
        0, none⟩
    | Except.error e =>
      ⟨task_id, failed_step.step_id, attempt_num, "alternative", "failed",
        0, some e⟩
  | none =>
    ⟨task_id, failed_step.step_id, attempt_num, "alternative", "failed", 0,
      none⟩

/-- `SelfHealingEngine._find_alternative`. -/
def find_alternative (failed_step : ExecutionStep) (g : ExecutionGraph) :
    Option ExecutionStep :=
  match failed_step.alternative_step with
  | none => none
  | some alt => stepMapFind g.steps alt

/-- `SelfHealingEngine._attempt_partial`: succeeds when the graph has at
least one completed step. -/
def attempt_partial (task_id : String) (failed_step : ExecutionStep)
    (attempt_num : Nat) (graph : Option ExecutionGraph) : RecoveryAttempt :=
  match graph with
  | some g =>
    if (g.steps.filter (fun s => s.status == "completed")).isEmpty then
      ⟨task_id, failed_step.step_id, attempt_num, "partial", "failed", 0,
        none⟩
    else
      ⟨task_id, failed_step.step_id, attempt_num, "partial", "success", 0,
        none⟩
  | none =>
    ⟨task_id, failed_step.step_id, attempt_num, "partial", "failed", 0,
      none⟩

/-- Stage 3 of `recover` (partial recovery); returns the final attempt
list. A partial success is the last stage either way. -/
def recover_stage3 (max_attempts : Nat) (task_id : String)
    (failed_step : ExecutionStep) (graph : Option ExecutionGraph)
    (attempt_num : Nat) (acc : List RecoveryAttempt) :
    List RecoveryAttempt :=
  if attempt_num < max_attempts then
    acc ++ [ attempt_partial task_id failed_step (attempt_num + 1) graph]
  else acc

/-- Stage 2 of `recover` (alternative step), falling through to stage 3. -/
def recover_stage2 (max_attempts : Nat) (task_id : String)
    (failed_step : ExecutionStep) (graph : Option ExecutionGraph)
    (execute_fn : Option (ExecutionStep → Except String Bool))
    (attempt_num : Nat) (acc : List RecoveryAttempt) :
    List RecoveryAttempt :=
  match graph with
  | some g =>
    if attempt_num < max_attempts then
      match find_alternative failed_step g with
      | some alt =>
        let a := attempt_alternative task_id failed_step alt
          (attempt_num + 1) execute_fn
        if a.outcome = "success" then acc ++ [a]
        else recover_stage3 max_attempts task_id failed_step graph
          (attempt_num + 1) (acc ++ [a])
      | none =>
        recover_stage3 max_attempts task_id failed_step graph attempt_num
          acc
    else
      recover_stage3 max_attempts task_id failed_step graph attempt_num acc
  | none =>
    recover_stage3 max_attempts task_id failed_step graph attempt_num acc

/-- `SelfHealingEngine.recover`: the three-stage cascade. -/
def recover (max_attempts : Nat) (task_id : String)
    (failed_step : ExecutionStep) (graph : Option ExecutionGraph)
    (execute_fn : Option (ExecutionStep → Except String Bool)) :
    List RecoveryAttempt :=
  if 0 < max_attempts then
    let a := attempt_retry task_id failed_step 1 execute_fn
    if a.outcome = "success" then [a]
    else recover_stage2 max_attempts task_id failed_step graph execute_fn
      1 [a]
  else recover_stage2 max_attempts task_id failed_step graph execute_fn 0 []

/-! ## Concurrency controller (src/intelligence/concurrency_controller.py)

Wall-clock instants are rationals in minutes supplied with each
operation. The counting semaphore is its internal counter (`permits`,
initially `max_parallel`; `acquire(blocking=False)` fails on zero,
`release` increments unconditionally — Python's `threading.Semaphore` is
unbounded). The `_active_slots` dict is an insertion-ordered association
list. `concurrency_queued` audit logging is not modelled (no claim
concerns it); `ConcurrencySlot.timeout_at` always parses (it is a
rational here, so `check_timeouts` never hits the `ValueError` skip). -/

/-- The `ConcurrencySlot` dataclass. -/
structure ConcurrencySlot where
  slot_id : Nat
  task_id : String
  started_at : ℚ
  timeout_at : ℚ
  status : String
  deriving DecidableEq, Repr

/-- The mutable state of a `ConcurrencyController` plus its two config
values. -/
structure CCState where
  maxParallel : Nat
  timeoutMinutes : ℚ
  permits : Nat
  active_slots : List (Nat × ConcurrencySlot)
  queue : List (ℚ × String)
  next_slot_id : Nat
  deriving DecidableEq, Repr

/-- `ConcurrencyController.__init__`. -/
def CCState.init (max_parallel_tasks : Nat) (task_timeout_minutes : ℚ) :
    CCState :=
  ⟨max_parallel_tasks, task_timeout_minutes, max_parallel_tasks, [], [], 0⟩

/-- `ConcurrencyController.acquire`. -/
def acquire (now : ℚ) (task_id : String) (s : CCState) :
    Option ConcurrencySlot × CCState :=
  if s.permits = 0 then (none, s)
  else
    let slot : ConcurrencySlot :=
      ⟨s.next_slot_id, task_id, now, now + s.timeoutMinutes, "active"⟩
    (some slot,
      { s with
          permits := s.permits - 1
          active_slots := s.active_slots ++ [(s.next_slot_id, slot)]
          next_slot_id := s.next_slot_id + 1 })

/-- `ConcurrencyController.release`: pop the slot if present (its status
is set on the popped copy, which is dropped), then release the semaphore
unconditionally. -/
def release (slot_id : Nat) (s : CCState) : CCState :=
  { s with
      active_slots := s.active_slots.eraseP (fun p => p.1 == slot_id)
      permits := s.permits + 1 }

/-- `ConcurrencyController.complete`: mark completed in place, then
`release`. -/
def complete (slot_id : Nat) (s : CCState) : CCState :=
  release slot_id
    { s with
        active_slots := (s.active_slots.map (fun p =>
          if p.1 = slot_id then (p.1, { p.2 with status := "completed" })
          else p)) }

/-- `ConcurrencyController.queue`: append, then stable sort by risk score
descending. -/
def queue_task (task_id : String) (risk_score : ℚ) (s : CCState) : CCState :=
  { s with
      queue := ((s.queue ++ [(risk_score, task_id)]).mergeSort
        (fun a b => decide (b.1 ≤ a.1))) }

/-- `ConcurrencyController.dequeue`. -/
def dequeue (s : CCState) : Option String × CCState :=
  match s.queue with
  | [] => (none, s)
  | x :: rest => (some x.2, { s with queue := rest })

/-- `ConcurrencyController.get_active_count`. -/
def get_active_count (s : CCState) : Nat :=
  s.active_slots.length

/-- `ConcurrencyController.check_timeouts`: collect expired slots, mark
them timed out, then release each. -/
def check_timeouts (now : ℚ) (s : CCState) : List String × CCState :=
  let timed_out := (s.active_slots.filter
      (fun p => decide (p.2.timeout_at ≤ now))).map
    (fun p => (p.1, p.2.task_id))
  let s2 := { s with
      active_slots := (s.active_slots.map (fun p =>
        if p.2.timeout_at ≤ now then (p.1, { p.2 with status := "timed_out" })
        else p)) }
  (timed_out.map Prod.snd,
   timed_out.foldl (fun st pr => release pr.1 st) s2)

/-- One operation on a `ConcurrencyController`. -/
inductive CCOp where
  | acquire (now : ℚ) (task_id : String)
  | release (slot_id : Nat)
  | complete (slot_id : Nat)
  | queue (task_id : String) (risk_score : ℚ)
  | dequeue
  | check_timeouts (now : ℚ)
  deriving DecidableEq, Repr

/-- State transition of one operation (return values dropped). -/
def ccStep (s : CCState) (op : CCOp) : CCState :=
  match op with
  | CCOp.acquire now tid => (acquire now tid s).2
  | CCOp.release sid => release sid s
  | CCOp.complete sid => complete sid s
  | CCOp.queue tid r => queue_task tid r s
  | CCOp.dequeue => (dequeue s).2
  | CCOp.check_timeouts now => (check_timeouts now s).2

/-- Run a sequence of operations. -/
def ccRun (s : CCState) (ops : List CCOp) : CCState :=
  ops.foldl ccStep s

/-- Well-formed usage: `release` and `complete` are only called on a slot
id that is active at that moment (each acquired slot is released at most
once). All other operations are unrestricted. -/
def ccValidTrace (s : CCState) : List CCOp → Bool
  | [] => true
  | op :: rest =>
    (match op with
     | CCOp.release sid => s.active_slots.any (fun p => p.1 == sid)
     | CCOp.complete sid => s.active_slots.any (fun p => p.1 == sid)
     | _ => true) && ccValidTrace (ccStep s op) rest

/-- Controller invariant: semaphore permits plus active slots add up to
the configured capacity; slot keys are distinct and below the next id. -/
def CCInv (s : CCState) : Prop :=
  s.permits + s.active_slots.length = s.maxParallel ∧
  (s.active_slots.map Prod.fst).Nodup ∧
  ∀ k ∈ s.active_slots.map Prod.fst, k < s.next_slot_id


/-! ## Audit log entries and string helpers

One record of `OperationsLogger.log` (the wall-clock `ts` field is not
modelled; `dst=None` is kept as `none`, serialized as "null"). ASCII text
is assumed for `str.lower` / `\\w`. -/

/-- One structured audit entry. -/
structure OpsEntry where
  op : String
  file : String
  src : String
  dst : Option String
  outcome : String
  detail : String
  deriving DecidableEq, Repr

/-- `str.lower()` (ASCII). -/
def toLowerStr (s : String) : String :=
  String.mk (s.data.map Char.toLower)

/-- Substring occurrence over character lists. -/
def infixCheck (needle : List Char) : List Char → Bool
  | [] => needle.isEmpty
  | c :: rest => needle.isPrefixOf (c :: rest) || infixCheck needle rest

/-- Python's `needle in haystack` substring test. -/
def containsSub (haystack needle : String) : Bool :=
  infixCheck needle.data haystack.data

/-- Python whitespace for `str.strip()` / falsy-after-strip checks. -/
def isPyWS (c : Char) : Bool :=
  c = ' ' || c = '\t' || c = '\n' || c = '\r' ||
    c = Char.ofNat 11 || c = Char.ofNat 12

/-- `str.strip()`. -/
def stripStr (s : String) : String :=
  String.mk (((s.data.dropWhile isPyWS).reverse.dropWhile isPyWS).reverse)

/-! ## Planning engine (src/intelligence/planning_engine.py) -/

/-- `TASK_TEMPLATES`: task type -> ordered `(step_id, name,
alternative_step)` triples. -/
def TASK_TEMPLATES : List (String × List (String × String × Option String)) :=
  [("document",
    [("read_source", "Read and parse source document", none),
     ("analyze_content", "Analyze document content and structure", none),
     ("generate_output", "Generate processed output", none),
     ("validate_output", "Validate output quality and completeness", none),
     ("save_result", "Save result to vault", none)]),
   ("email",
    [("parse_email", "Parse email content and metadata", none),
     ("extract_action", "Extract actionable items from email", none),
     ("draft_response", "Draft response or action plan", none),
     ("review_draft", "Review draft for accuracy", none)]),
   ("data",
    [("load_data", "Load raw data files", none),
     ("clean_data", "Clean and normalize data", none),
     ("process_data", "Process and transform data", none),
     ("validate_data", "Validate processed data integrity", none),
     ("export_data", "Export results to target format", none)]),
   ("code",
    [("read_requirements", "Read and understand requirements", none),
     ("plan_implementation", "Plan implementation approach", none),
     ("implement_code", "Implement the code changes", none),
     ("test_code", "Test the implementation", none),
     ("review_code", "Review code quality", none)]),
   ("report",
    [("gather_data", "Gather data from sources", none),
     ("analyze_data", "Analyze gathered data", none),
     ("generate_report", "Generate report content", none),
     ("format_report", "Format and polish report", none),
     ("review_report", "Review report for accuracy", none)]),
   ("general",
    [("understand_task", "Understand task requirements", none),
     ("plan_approach", "Plan execution approach", none),
     ("execute_task", "Execute the main task", none),
     ("verify_result", "Verify task completion", none)])]

/-- `TYPE_KEYWORDS`: the five fixed keyword sets. -/
def TYPE_KEYWORDS : List (String × List String) :=
  [("document",
    ["document", "file", "pdf", "text", "read", "write", "edit", "format"]),
   ("email",
    ["email", "mail", "message", "reply", "forward", "inbox", "send"]),
   ("data",
    ["data", "csv", "json", "database", "table", "spreadsheet", "excel",
     "import", "export"]),
   ("code",
    ["code", "program", "script", "function", "bug", "fix", "implement",
     "develop"]),
   ("report",
    ["report", "summary", "quarterly", "analysis", "dashboard", "metric",
     "chart"])]

/-- Keyword set of a task type (for stating properties). -/
def keywordsOf (t : String) : List String :=
  ((TYPE_KEYWORDS.find? (fun p => p.1 == t)).map Prod.snd).getD []

/-- The score `sum(1 for kw in keywords if kw in content_lower)`: the
number of keywords of the set occurring in the lowered content. -/
def presenceScore (content_lower : String) (kws : List String) : Nat :=
  (kws.filter (fun kw => containsSub content_lower kw)).length

/-- `max(scores, key=scores.get)` keeps the first maximum in insertion
order: replace only on a strictly larger score. -/
def pickMax (best cand : String × Nat) : String × Nat :=
  if best.2 < cand.2 then cand else best

/-- `PlanningEngine._extract_task_type`. -/
def extract_task_type (content : String) : String :=
  let content_lower := toLowerStr content
  let scores := TYPE_KEYWORDS.filterMap (fun p =>
    let sc := presenceScore content_lower p.2
    if 0 < sc then some (p.1, sc) else none)
  match scores with
  | [] => "general"
  | x :: rest => (rest.foldl pickMax x).1

/-- Modelled from the spec sentence of C7 ("counting keyword occurrences
in case-folded content"): the total number of (possibly overlapping)
occurrences of the set's keywords in the lowered content. Used only to
compare the claim's wording with the source's `presenceScore`. -/
def countOcc (needle : List Char) : List Char → Nat
  | [] => 0
  | c :: rest =>
    (if needle.isPrefixOf (c :: rest) then 1 else 0) + countOcc needle rest

/-- Spec-side keyword score: occurrences counted with multiplicity. -/
def specOccurrenceScore (content_lower : String) (kws : List String) : Nat :=
  (kws.map (fun kw => countOcc kw.data content_lower.data)).sum

/-- `PlanningEngine._get_estimated_duration`; the learning engine is an
optional query function `task_type -> metrics` (its file I/O is opaque
here). -/
def get_estimated_duration
    (learning : Option (String → Option LearningMetrics))
    (task_type : String) : ℚ :=
  match learning with
  | some query =>
    match query task_type with
    | some m =>
      if 5 ≤ m.total_count then
        let template := ((TASK_TEMPLATES.find?
          (fun p => p.1 == task_type)).map Prod.snd).getD
          (((TASK_TEMPLATES.find? (fun p => p.1 == "general")).map
            Prod.snd).getD [])
        if 0 < template.length then
          (m.avg_duration_ms / 60000) / template.length
        else 1
      else 1
    | none => 1
  | none => 1

/-- `PlanningEngine._find_parallelizable`. -/
def find_parallelizable (steps : List ExecutionStep)
    (edges : List (String × List String)) : List (List String) :=
  let dependents := edges.foldl (fun acc p => acc ++ p.2) ([] : List String)
  let roots := (steps.filter
    (fun s => !(dependents.contains s.step_id))).map (fun s => s.step_id)
  if 1 < roots.length then [roots] else []

/-- `PlanningEngine._log_decomposition`: the single audit entry decompose
emits (note the `op="risk_scored"` tag in the source). -/
def log_decomposition (graph : ExecutionGraph) : OpsEntry :=
  { op := "risk_scored", file := graph.task_id, src := "planning_engine",
    dst := none, outcome := "success",
    detail := "steps=" ++ toString graph.steps.length ++ " edges="
      ++ toString (graph.edges.map (fun p => p.2.length)).sum
      ++ " parallel_groups=" ++ toString graph.parallelizable_groups.length }

/-- `PlanningEngine.decompose` with an operations logger attached;
returns the graph plus the audit entries the call appends (`none` models
the `ValueError` on empty content; `created_at` is left empty). -/
def decompose (learning : Option (String → Option LearningMetrics))
    (task_content : String) (task_type : Option String) (task_id : String) :
    Option (ExecutionGraph × List OpsEntry) :=
  if task_content.data.all isPyWS then none
  else
    let t := match task_type with
      | some ty => if ty = "" then extract_task_type task_content else ty
      | none => extract_task_type task_content
    let template := ((TASK_TEMPLATES.find?
      (fun p => p.1 == t)).map Prod.snd).getD
      (((TASK_TEMPLATES.find? (fun p => p.1 == "general")).map
        Prod.snd).getD [])
    let steps := template.enum.map (fun pr =>
      ExecutionStep.mk pr.2.1 pr.2.2.1 ((pr.1 : Int) + 1) "pending"
        (some (get_estimated_duration learning t)) pr.2.2.2)
    let edges := (steps.zip steps.tail).map
      (fun pr => (pr.1.step_id, [pr.2.step_id]))
    let parallelizable := find_parallelizable steps edges
    let graph : ExecutionGraph :=
      { task_id := task_id, steps := steps, edges := edges,
        parallelizable_groups := parallelizable, created_at := "x",
        version := 1 }
    if graph.validate then some (graph, [log_decomposition graph])
    else none

/-! ## Task classifier (src/processors/task_classifier.py)

The classifier is modelled with an operations logger attached; each
checker returns its pass/fail Bool together with the audit entries it
appends. The `_gate_results` dict (per-call bookkeeping read back by the
caller for frontmatter) is not modelled. Wall-clock, `logging` messages
and `Path` handling are outside the model; the vault path is carried as a
string and `Rollback_Archive` existence as a Bool. -/

/-- `CREDENTIAL_KEYWORDS`. -/
def CREDENTIAL_KEYWORDS : List String :=
  ["password", "secret", "token", "api_key", "api-key",
   "credential", "auth", "oauth", "private_key", "access_key",
   "ssh", "certificate", ".pem", ".key", ".env"]

/-- `NON_DETERMINISTIC_KEYWORDS`. -/
def NON_DETERMINISTIC_KEYWORDS : List String :=
  ["api call", "http request", "download", "upload",
   "send email", "network", "external service",
   "database", "deploy", "install"]

/-- `NETWORK_KEYWORDS`. -/
def NETWORK_KEYWORDS : List String :=
  ["http", "https", "api", "curl", "wget", "fetch",
   "request", "endpoint", "webhook", "socket"]

def MAX_SIMPLE_STEPS : Nat := 5

def MAX_COMPLEX_STEPS : Nat := 15

/-- The config keys `classify` reads (`get_config()`). -/
structure ClassifierConfig where
  allowed_external_services : List String
  sla_simple_minutes : ℚ
  sla_complex_minutes : ℚ
  deriving DecidableEq, Repr

/-- Filesystem facts the classifier consults. -/
structure ClassifierEnv where
  vault_path : Option String
  rollback_archive_exists : Bool
  deriving DecidableEq, Repr

/-- The metadata fields `classify` reads (`override` truthiness). -/
structure TaskMeta where
  override : Bool
  deriving DecidableEq, Repr

/-- `TaskClassifier._log_gate_blocked` (logger attached). -/
def log_gate_blocked (gate detail : String) : OpsEntry :=
  { op := "gate_blocked", file := "classifier", src := gate, dst := none,
    outcome := "flagged", detail := "blocked:" ++ detail }

/-- `TaskClassifier._count_actionable_steps`. -/
def count_actionable_steps (plan_steps : List String) : Nat :=
  (plan_steps.filter (fun s =>
    !(stripStr s).data.isEmpty &&
      !((stripStr s).data.head? == some (Char.ofNat 35)))).length

/-- `TaskClassifier._check_credentials` (gate 2; note the missing
separator between the lowered content and the joined steps). -/
def check_credentials (task_content : String)
    (plan_steps : List String) : Bool :=
  let combined := toLowerStr task_content ++
    String.intercalate " " (plan_steps.map toLowerStr)
  !(CREDENTIAL_KEYWORDS.any (fun kw => containsSub combined kw))

/-- `TaskClassifier._check_determinism` (gate 3). -/
def check_determinism (plan_steps : List String) : Bool :=
  let combined := String.intercalate " " (plan_steps.map toLowerStr)
  !(NON_DETERMINISTIC_KEYWORDS.any (fun kw => containsSub combined kw))

/-- Members of the character class `[\w./]` (ASCII). -/
def isPathChar (c : Char) : Bool :=
  c.isAlphanum || c = Char.ofNat 95 || c = '.' || c = '/'

/-- `re.findall` of the pattern matching a slash followed by one or more
class characters: leftmost, greedy, non-overlapping matches in order. -/
def rePathScan : List Char → List String
  | [] => []
  | c :: rest =>
    if c = '/' then
      let run := rest.takeWhile isPathChar
      if run.isEmpty then rePathScan rest
      else ("/" ++ String.mk run) :: rePathScan (rest.drop run.length)
    else rePathScan rest
termination_by l => l.length
decreasing_by
  all_goals (try simp only [List.length_cons, List.length_drop])
  all_goals omega

/-- The vault-scope loop of `_check_permissions`: first scanned path that
is not whitelisted, is longer than 5 characters and does not contain the
lowered vault path. -/
def findOffendingPath (vault_str combined : String) : Option String :=
  (rePathScan combined.data).find? (fun p =>
    !(["/needs_action/", "/in_progress/", "/done/", "/plans/",
       "/rollback_archive/"].contains p) &&
      decide (5 < p.length) && !(containsSub p vault_str))

/-- `TaskClassifier._check_permissions` (gate 4). -/
def check_permissions (cfg : ClassifierConfig) (env : ClassifierEnv)
    (task_content : String) (plan_steps : List String) :
    Bool × List OpsEntry :=
  let combined := toLowerStr task_content ++
    String.intercalate " " (plan_steps.map toLowerStr)
  let has_network_ref :=
    NETWORK_KEYWORDS.any (fun kw => containsSub combined kw)
  if has_network_ref && cfg.allowed_external_services.isEmpty then
    (false, [log_gate_blocked "permission_gate" "network_not_allowed"])
  else if has_network_ref && !cfg.allowed_external_services.isEmpty &&
      !(cfg.allowed_external_services.any
        (fun svc => containsSub combined (toLowerStr svc))) then
    (false, [log_gate_blocked "permission_gate" "service_not_in_allowlist"])
  else
    match env.vault_path with
    | none => (true, [])
    | some vault =>
      match findOffendingPath (toLowerStr vault) combined with
      | none => (true, [])
      | some pathRef =>
        (false,
         [log_gate_blocked "permission_gate" ("outside_vault:" ++ pathRef)])

/-- `TaskClassifier._estimate_duration` over the audit log (the last 200
entries, newest first; each matching entry contributes the constant 1.0
or 5.0 of the source). -/
def estimate_duration (complexity : String) (log : List OpsEntry) :
    Option ℚ :=
  let recent := (log.reverse).take 200
  let durations := (recent.filter (fun e =>
      e.op == "task_executed" && e.outcome == "success" &&
        containsSub e.detail ("complexity:" ++ complexity))).map
    (fun _ => if complexity = "simple" then (1 : ℚ) else 5)
  if durations.isEmpty then none
  else some (durations.sum / durations.length)

/-- Python's one-decimal f-string rendering, truncating toward negative
infinity (Python's round-half-even differs at most in the final digit;
no claim depends on the digits). -/
def fmt1 (q : ℚ) : String :=
  toString (⌊q⌋ : Int) ++ "." ++ toString (⌊q * 10⌋ - ⌊q⌋ * 10)

/-- `TaskClassifier._check_sla_feasibility` (gate 5). -/
def check_sla_feasibility (cfg : ClassifierConfig) (complexity : String)
    (log : List OpsEntry) : Bool × List OpsEntry :=
  let sla_minutes := if complexity = "simple" then cfg.sla_simple_minutes
    else cfg.sla_complex_minutes
  match estimate_duration complexity log with
  | none => (true, [])
  | some est =>
    let threshold := sla_minutes * (3 / 2 : ℚ)
    if threshold < est then
      (false, [log_gate_blocked "sla_feasibility"
        ("estimated:" ++ fmt1 est ++ "min > threshold:"
          ++ fmt1 threshold ++ "min")])
    else (true, [])

/-- `TaskClassifier._check_rollback_readiness` (gate 6). -/
def check_rollback_readiness (env : ClassifierEnv) : Bool × List OpsEntry :=
  match env.vault_path with
  | none => (true, [])
  | some _ =>
    if env.rollback_archive_exists then (true, [])
    else
      (false, [log_gate_blocked "rollback_readiness"
        "rollback_archive_missing"])

/-- `TaskClassifier.classify` with a logger attached: the label together
with the whole audit log after the call. -/
def classify (cfg : ClassifierConfig) (env : ClassifierEnv)
    (task_content : String) (plan_steps : List String)
    (task_metadata : Option TaskMeta) (log : List OpsEntry) :
    String × List OpsEntry :=
  if (match task_metadata with
      | some md => md.override
      | none => false) then
    if count_actionable_steps plan_steps ≤ MAX_SIMPLE_STEPS then
      ("simple", log)
    else ("complex", log)
  else
    let actionable := count_actionable_steps plan_steps
    if MAX_COMPLEX_STEPS < actionable then ("manual_review", log)
    else
      let is_simple_step_count := actionable ≤ MAX_SIMPLE_STEPS
      if !check_credentials task_content plan_steps then ("complex", log)
      else if !check_determinism plan_steps then ("complex", log)
      else
        let perm := check_permissions cfg env task_content plan_steps
        if !perm.1 then ("complex", log ++ perm.2)
        else
          let complexity_for_sla :=
            if is_simple_step_count then "simple" else "complex"
          let sla := check_sla_feasibility cfg complexity_for_sla log
          if !sla.1 then ("complex", log ++ sla.2)
          else
            if !is_simple_step_count then
              let rb := check_rollback_readiness env
              if !rb.1 then ("complex", log ++ rb.2)
              else ("complex", log)
            else ("simple", log)

/-! ## Lemma layer for the Kahn loops (C2) -/

theorem decr_fst (dsts : List String) : ∀ (indeg : String → Int)
    (acc : List String) (v : String),
    (dsts.foldl decrOne (indeg, acc)).1 v = indeg v - dsts.count v := by
  induction dsts with
  | nil => intro indeg acc v; simp
  | cons d tl ih =>
    intro indeg acc v
    simp only [List.foldl_cons, decrOne]
    rw [ih]
    by_cases h : v = d
    · subst h
      simp [List.count_cons_self]
      ring
    · simp [h, List.count_cons_of_ne h]

theorem decr_snd_acc (dsts : List String) : ∀ (indeg : String → Int)
    (acc : List String),
    (dsts.foldl decrOne (indeg, acc)).2
      = acc ++ (dsts.foldl decrOne (indeg, [])).2 := by
  induction dsts with
  | nil => intro indeg acc; simp
  | cons d tl ih =>
    intro indeg acc
    simp only [List.foldl_cons, decrOne]
    rw [ih, ih (fun k => if k = d then indeg d - 1 else indeg k)
      (if indeg d - 1 = 0 then [] ++ [d] else [])]
    by_cases h : indeg d - 1 = 0 <;> simp [h]

/-- The decrement map after processing `dsts`, shifted by the hypothesis
that the stored in-degree dominates the multiplicities (true in the loop:
the in-degree of `v` includes the edge bundle being processed). -/
theorem shift_count_le (d : String) (tl : List String) (indeg : String → Int)
    (hge : ∀ w, ((d :: tl).count w : Int) ≤ indeg w) :
    ∀ w, (tl.count w : Int) ≤
      (fun k => if k = d then indeg d - 1 else indeg k) w := by
  intro w
  have h := hge w
  by_cases hw : w = d
  · subst hw
    rw [List.count_cons_self] at h
    simp only [if_pos rfl]
    push_cast at h ⊢
    omega
  · rw [List.count_cons_of_ne hw] at h
    simpa [hw] using h

theorem decr_mem (dsts : List String) : ∀ (indeg : String → Int) (v : String),
    (∀ w, (dsts.count w : Int) ≤ indeg w) →
    (v ∈ (decrAll indeg dsts).2 ↔ (v ∈ dsts ∧ indeg v = dsts.count v)) := by
  induction dsts with
  | nil => intro indeg v _; simp [decrAll]
  | cons d tl ih =>
    intro indeg v hge
    simp only [decrAll, List.foldl_cons, decrOne]
    rw [decr_snd_acc]
    have hge1 := shift_count_le d tl indeg hge
    have ihv := ih (fun k => if k = d then indeg d - 1 else indeg k) v hge1
    simp only [decrAll] at ihv
    rw [List.mem_append, ihv]
    have hd := hge d
    rw [List.count_cons_self] at hd
    by_cases hvd : v = d
    · subst hvd
      simp only [if_pos rfl, List.count_cons_self, List.mem_cons, true_or,
        true_and]
      constructor
      · rintro (h1 | ⟨h2, h3⟩)
        · have hz : indeg v - 1 = 0 := by
            by_cases hz : indeg v - 1 = 0
            · exact hz
            · simp [hz] at h1
          have hc : (tl.count v : Int) = 0 := by push_cast at hd ⊢; omega
          push_cast
          omega
        · simp at h3
          push_cast at h3 ⊢
          omega
      · intro h2
        by_cases hz : (tl.count v : Int) = 0
        · left
          have : indeg v - 1 = 0 := by push_cast at h2 hz ⊢; omega
          simp [this]
        · right
          have hnz : tl.count v ≠ 0 := by exact_mod_cast hz
          have hmem : v ∈ tl := by
            rw [← List.count_pos_iff]
            omega
          refine ⟨hmem, ?_⟩
          simp only [ite_true, if_pos]
          push_cast at h2 ⊢
          omega
    · simp only [if_neg hvd, List.mem_cons, List.count_cons_of_ne hvd]
      constructor
      · rintro (h1 | ⟨h2, h3⟩)
        · by_cases hz : indeg d - 1 = 0 <;> simp [hz] at h1
          exact absurd h1 hvd
        · exact ⟨Or.inr h2, h3⟩
      · rintro ⟨h1 | h1, h2⟩
        · exact absurd h1 hvd
        · exact Or.inr ⟨h1, h2⟩

theorem decr_nodup (dsts : List String) : ∀ (indeg : String → Int),
    (∀ w, (dsts.count w : Int) ≤ indeg w) →
    (decrAll indeg dsts).2.Nodup := by
  induction dsts with
  | nil => intro indeg _; simp [decrAll]
  | cons d tl ih =>
    intro indeg hge
    simp only [decrAll, List.foldl_cons, decrOne]
    rw [decr_snd_acc]
    have hge1 := shift_count_le d tl indeg hge
    have ihn := ih _ hge1
    simp only [decrAll] at ihn
    by_cases hz : indeg d - 1 = 0
    · simp only [if_pos hz, List.nil_append, List.singleton_append,
        List.nodup_cons]
      refine ⟨?_, ihn⟩
      intro hb
      have := (decr_mem tl _ d hge1)
      simp only [decrAll] at this
      rw [this] at hb
      obtain ⟨hmem, heq⟩ := hb
      simp at heq
      have hcz : (tl.count d : Int) = 0 := by omega
      have : d ∉ tl := by
        rw [← List.count_eq_zero]
        exact_mod_cast hcz
      exact this hmem
    · simpa [hz] using ihn

theorem decr_sub (dsts : List String) : ∀ (indeg : String → Int)
    (acc : List String), (dsts.foldl decrOne (indeg, acc)).2 ⊆ acc ++ dsts := by
  induction dsts with
  | nil => intro indeg acc; simp
  | cons d tl ih =>
    intro indeg acc
    simp only [List.foldl_cons, decrOne]
    intro x hx
    have := ih _ _ hx
    rw [List.mem_append] at this
    rcases this with h1 | h1
    · by_cases hz : indeg d - 1 = 0
      · simp only [if_pos hz, List.mem_append, List.mem_singleton] at h1
        rcases h1 with h2 | h2
        · simp [h2]
        · simp [h2]
      · simp only [if_neg hz] at h1
        simp [h1]
    · simp [h1]

theorem remIndeg_nonneg (edges : List (String × List String))
    (em : List String) (v : String) : 0 ≤ remIndeg edges em v := by
  apply List.sum_nonneg
  intro x hx
  simp only [List.mem_map] at hx
  obtain ⟨p, _, rfl⟩ := hx
  positivity

theorem remIndeg_nil (edges : List (String × List String)) (v : String) :
    remIndeg edges [] v = indegInit edges v := by
  simp [remIndeg, indegInit]

theorem remIndeg_cons (p : String × List String)
    (tl : List (String × List String)) (em : List String) (v : String) :
    remIndeg (p :: tl) em v =
      (if p.1 ∈ em then 0 else (p.2.count v : Int)) + remIndeg tl em v := by
  simp only [remIndeg, List.filter_cons]
  by_cases h : p.1 ∈ em <;> simp [h]

theorem edgeLookup_cons (p : String × List String)
    (tl : List (String × List String)) (x : String) :
    edgeLookup (p :: tl) x = if p.1 = x then p.2 else edgeLookup tl x := by
  simp only [edgeLookup, List.find?]
  by_cases h : p.1 = x
  · simp [h]
  · have hb : (p.1 == x) = false := by simpa using h
    simp [hb, h]

theorem remIndeg_congr (edges : List (String × List String))
    (em em2 : List String) (v : String)
    (h : ∀ p ∈ edges, (p.1 ∈ em ↔ p.1 ∈ em2)) :
    remIndeg edges em v = remIndeg edges em2 v := by
  induction edges with
  | nil => rfl
  | cons p tl ih =>
    rw [remIndeg_cons, remIndeg_cons,
      ih (fun q hq => h q (List.mem_cons_of_mem p hq))]
    have hp := h p (List.mem_cons_self p tl)
    by_cases hm : p.1 ∈ em
    · rw [if_pos hm, if_pos (hp.mp hm)]
    · rw [if_neg hm, if_neg (fun hc => hm (hp.mpr hc))]

theorem remIndeg_append (edges : List (String × List String))
    (em : List String) (x : String) (v : String)
    (hkeys : (edges.map Prod.fst).Nodup) (hx : x ∉ em) :
    remIndeg edges (em ++ [x]) v
      = remIndeg edges em v - (edgeLookup edges x).count v := by
  induction edges with
  | nil => simp [remIndeg, edgeLookup]
  | cons p tl ih =>
    simp only [List.map_cons, List.nodup_cons] at hkeys
    obtain ⟨hp1, htl⟩ := hkeys
    rw [remIndeg_cons, remIndeg_cons, edgeLookup_cons]
    by_cases hpx : p.1 = x
    · rw [if_pos hpx]
      have h1 : p.1 ∈ em ++ [x] := by simp [hpx]
      rw [if_pos h1, if_neg (by rw [hpx]; exact hx)]
      have h2 : remIndeg tl (em ++ [x]) v = remIndeg tl em v := by
        apply remIndeg_congr
        intro q hq
        have hqx : q.1 ≠ x := by
          rw [← hpx]
          intro hc
          exact hp1 (hc ▸ List.mem_map_of_mem Prod.fst hq)
        simp [List.mem_append, hqx]
      rw [h2]
      ring
    · rw [if_neg hpx, ih htl]
      have : (p.1 ∈ em ++ [x]) ↔ p.1 ∈ em := by simp [List.mem_append, hpx]
      by_cases hm : p.1 ∈ em
      · rw [if_pos (this.mpr hm), if_pos hm]
        ring
      · rw [if_neg (fun hc => hm (this.mp hc)), if_neg hm]
        ring

theorem count_le_remIndeg (edges : List (String × List String))
    (em : List String) (x : String) (v : String)
    (hkeys : (edges.map Prod.fst).Nodup) (hx : x ∉ em) :
    ((edgeLookup edges x).count v : Int) ≤ remIndeg edges em v := by
  have h := remIndeg_append edges em x v hkeys hx
  have h2 := remIndeg_nonneg edges (em ++ [x]) v
  omega

theorem remIndeg_le_of_subset (edges : List (String × List String))
    (em em2 : List String) (v : String) (h : ∀ y ∈ em, y ∈ em2) :
    remIndeg edges em2 v ≤ remIndeg edges em v := by
  induction edges with
  | nil => simp [remIndeg]
  | cons p tl ih =>
    rw [remIndeg_cons, remIndeg_cons]
    have hterm : (if p.1 ∈ em2 then 0 else (p.2.count v : Int))
        ≤ (if p.1 ∈ em then 0 else (p.2.count v : Int)) := by
      by_cases hm : p.1 ∈ em
      · simp [hm, h p.1 hm]
      · by_cases hm2 : p.1 ∈ em2 <;> simp [hm, hm2]
    omega

theorem remIndeg_zero_of_subset (edges : List (String × List String))
    (em em2 : List String) (v : String) (h : ∀ y ∈ em, y ∈ em2)
    (h0 : remIndeg edges em v = 0) : remIndeg edges em2 v = 0 := by
  have h1 := remIndeg_le_of_subset edges em em2 v h
  have h2 := remIndeg_nonneg edges em2 v
  omega

theorem edgeLookup_of_mem (edges : List (String × List String))
    (p : String × List String) (hkeys : (edges.map Prod.fst).Nodup)
    (hp : p ∈ edges) : edgeLookup edges p.1 = p.2 := by
  induction edges with
  | nil => cases hp
  | cons q tl ih =>
    simp only [List.map_cons, List.nodup_cons] at hkeys
    obtain ⟨hq1, htl⟩ := hkeys
    rw [edgeLookup_cons]
    rcases List.mem_cons.mp hp with h1 | h1
    · subst h1
      simp
    · have : q.1 ≠ p.1 := by
        intro hc
        exact hq1 (by rw [hc]; exact List.mem_map_of_mem Prod.fst h1)
      rw [if_neg this]
      exact ih htl h1

theorem edgeLookup_subset (edges : List (String × List String))
    (ids : List String)
    (hclosed : ∀ p ∈ edges, p.1 ∈ ids ∧ ∀ d ∈ p.2, d ∈ ids) (x : String) :
    ∀ d ∈ edgeLookup edges x, d ∈ ids := by
  intro d hd
  unfold edgeLookup at hd
  cases hfind : edges.find? (fun p => p.1 == x) with
  | none => rw [hfind] at hd; cases hd
  | some p =>
    rw [hfind] at hd
    exact (hclosed p (List.mem_of_find?_eq_some hfind)).2 d hd

theorem emitted_rem_zero (edges : List (String × List String))
    (em : List String) (hkeys : (edges.map Prod.fst).Nodup)
    (hpreds : ∀ (k : Nat) (hk : k < em.length) (u : String),
      0 < (edgeLookup edges u).count (em.get ⟨k, hk⟩) → u ∈ em.take k) :
    ∀ v ∈ em, remIndeg edges em v = 0 := by
  intro v hv
  obtain ⟨k, hk⟩ := List.mem_iff_get.mp hv
  apply List.sum_eq_zero
  intro t ht
  simp only [List.mem_map, List.mem_filter] at ht
  obtain ⟨p, ⟨hpmem, hpem⟩, rfl⟩ := ht
  rw [decide_eq_true_eq] at hpem
  by_contra hne
  have hpos : 0 < p.2.count v := by
    rcases Nat.eq_zero_or_pos (p.2.count v) with h0 | h0
    · exact absurd (by exact_mod_cast congrArg (Int.ofNat) h0) (by
        intro hcast
        apply hne
        simpa using hcast)
    · exact h0
  have hlp : edgeLookup edges p.1 = p.2 := edgeLookup_of_mem edges p hkeys hpmem
  have := hpreds k k.isLt p.1 (by rw [hlp, hk]; exact hpos)
  exact hpem (List.mem_of_mem_take this)

theorem kahn_step (edges : List (String × List String)) (ids : List String)
    (hkeys : (edges.map Prod.fst).Nodup)
    (hclosed : ∀ p ∈ edges, p.1 ∈ ids ∧ ∀ d ∈ p.2, d ∈ ids)
    (indeg : String → Int) (x : String) (rest em : List String)
    (inv : KahnInv edges ids indeg (x :: rest) em) :
    KahnInv edges ids (decrAll indeg (edgeLookup edges x)).1
      (rest ++ (decrAll indeg (edgeLookup edges x)).2) (em ++ [x]) := by
  set dsts := edgeLookup edges x with hdsts
  have hxem : x ∉ em := by
    have := inv.nodup
    rw [List.nodup_append] at this
    exact fun hc => this.2.2 hc (List.mem_cons_self x rest)
  have hxids : x ∈ ids := inv.subset x (by simp)
  have hx0 : remIndeg edges em x = 0 :=
    ((inv.queue_iff x hxids).mp (List.mem_cons_self x rest)).2
  have hemz : ∀ v ∈ em, remIndeg edges em v = 0 :=
    emitted_rem_zero edges em hkeys inv.preds_done
  have hge : ∀ w, (dsts.count w : Int) ≤ indeg w := by
    intro w
    rw [inv.indeg_eq]
    exact count_le_remIndeg edges em x w hkeys hxem
  have hnewR : ∀ v, v ∈ (decrAll indeg dsts).2 ↔
      (v ∈ dsts ∧ remIndeg edges em v = (dsts.count v : Int)) := by
    intro v
    rw [decr_mem dsts indeg v hge, inv.indeg_eq]
  have hrem1 : ∀ v, remIndeg edges (em ++ [x]) v
      = remIndeg edges em v - (dsts.count v : Int) := by
    intro v
    exact remIndeg_append edges em x v hkeys hxem
  have hnodupq : (em ++ x :: rest).Nodup := inv.nodup
  have hrest_em : ∀ v ∈ rest, v ∉ em := by
    intro v hv hc
    rw [List.nodup_append] at hnodupq
    exact hnodupq.2.2 hc (List.mem_cons_of_mem x hv)
  have hrest_x : x ∉ rest := by
    rw [List.nodup_append] at hnodupq
    exact (List.nodup_cons.mp hnodupq.2.1).1
  have hrest_zero : ∀ v ∈ rest, remIndeg edges em v = 0 := by
    intro v hv
    exact ((inv.queue_iff v (inv.subset v (by simp [hv]))).mp
      (List.mem_cons_of_mem x hv)).2
  have hnewR_pos : ∀ v ∈ (decrAll indeg dsts).2, 0 < (dsts.count v : Int) := by
    intro v hv
    obtain ⟨hvd, _⟩ := (hnewR v).mp hv
    exact_mod_cast List.count_pos_iff.mpr hvd
  have hnewR_em : ∀ v ∈ (decrAll indeg dsts).2, v ∉ em := by
    intro v hv hc
    have h1 := hemz v hc
    obtain ⟨_, h2⟩ := (hnewR v).mp hv
    have := hnewR_pos v hv
    omega
  have hnewR_x : x ∉ (decrAll indeg dsts).2 := by
    intro hc
    obtain ⟨_, h2⟩ := (hnewR x).mp hc
    have := hnewR_pos x hc
    omega
  have hnewR_rest : ∀ v ∈ (decrAll indeg dsts).2, v ∉ rest := by
    intro v hv hc
    have h1 := hrest_zero v hc
    have := hnewR_pos v hv
    obtain ⟨_, h2⟩ := (hnewR v).mp hv
    omega
  have hrestn : rest.Nodup := by
    rw [List.nodup_append] at hnodupq
    exact (List.nodup_cons.mp hnodupq.2.1).2
  have hq2n : (rest ++ (decrAll indeg dsts).2).Nodup := by
    rw [List.nodup_append]
    exact ⟨hrestn, decr_nodup dsts indeg hge,
      fun a ha hb => hnewR_rest a hb ha⟩
  have hq2m : ∀ v, v ∈ rest ++ (decrAll indeg dsts).2 ↔
      v ∈ rest ++ (decrAll indeg dsts).2 := fun v => Iff.rfl
  have hq2ids : ∀ v ∈ rest ++ (decrAll indeg dsts).2, v ∈ ids := by
    intro v hv
    rcases List.mem_append.mp ((hq2m v).mp hv) with h1 | h1
    · exact inv.subset v (by simp [h1])
    · obtain ⟨hvd, _⟩ := (hnewR v).mp h1
      exact edgeLookup_subset edges ids hclosed x v hvd
  refine ⟨?_, ?_, ?_, ?_, ?_⟩
  · -- nodup
    rw [List.nodup_append]
    refine ⟨?_, hq2n, ?_⟩
    · rw [List.nodup_append]
      refine ⟨?_, List.nodup_singleton x, ?_⟩
      · rw [List.nodup_append] at hnodupq
        exact hnodupq.1
      · intro a ha hb
        rw [List.mem_singleton] at hb
        subst hb
        exact hxem ha
    · intro a ha hb
      rcases List.mem_append.mp ((hq2m a).mp hb) with h1 | h1
      · rcases List.mem_append.mp ha with h2 | h2
        · exact hrest_em a h1 h2
        · rw [List.mem_singleton] at h2
          subst h2
          exact hrest_x h1
      · rcases List.mem_append.mp ha with h2 | h2
        · exact hnewR_em a h1 h2
        · rw [List.mem_singleton] at h2
          subst h2
          exact hnewR_x h1
  · -- subset
    intro v hv
    rcases List.mem_append.mp hv with h1 | h1
    · rcases List.mem_append.mp h1 with h2 | h2
      · exact inv.subset v (by simp [h2])
      · rw [List.mem_singleton] at h2
        subst h2
        exact hxids
    · exact hq2ids v h1
  · -- indeg_eq
    intro v
    have hfst : (decrAll indeg dsts).1 v = indeg v - dsts.count v :=
      decr_fst dsts indeg [] v
    rw [hfst, inv.indeg_eq, hrem1]
  · -- queue_iff
    intro v hvids
    rw [hq2m, List.mem_append, hnewR, hrem1]
    constructor
    · rintro (h1 | ⟨h2, h3⟩)
      · have hno : (dsts.count v : Int) = 0 := by
          by_contra hc
          have hpos : 0 < dsts.count v := by
            rcases Nat.eq_zero_or_pos (dsts.count v) with h0 | h0
            · exact absurd (by exact_mod_cast h0) hc
            · exact h0
          have hvd : v ∈ dsts := List.count_pos_iff.mp hpos
          have h4 := count_le_remIndeg edges em x v hkeys hxem
          rw [← hdsts] at h4
          have h5 := hrest_zero v h1
          have h6 := hge v
          rw [inv.indeg_eq] at h6
          omega
        refine ⟨?_, by rw [hrest_zero v h1]; omega⟩
        intro hc
        rcases List.mem_append.mp hc with h2 | h2
        · exact hrest_em v h1 h2
        · rw [List.mem_singleton] at h2
          subst h2
          exact hrest_x h1
      · refine ⟨?_, by omega⟩
        intro hc
        rcases List.mem_append.mp hc with h4 | h4
        · have h5 := hemz v h4
          have hpos : 0 < dsts.count v := List.count_pos_iff.mpr h2
          omega
        · rw [List.mem_singleton] at h4
          subst h4
          have hpos : 0 < dsts.count v := List.count_pos_iff.mpr h2
          omega
    · rintro ⟨h1, h2⟩
      have hvem : v ∉ em := fun hc => h1 (by simp [hc])
      have hvx : v ≠ x := fun hc => h1 (by simp [hc])
      by_cases hcnt : (dsts.count v : Int) = 0
      · left
        have h3 : remIndeg edges em v = 0 := by omega
        have := (inv.queue_iff v hvids).mpr ⟨hvem, h3⟩
        rcases List.mem_cons.mp this with h4 | h4
        · exact absurd h4 hvx
        · exact h4
      · right
        have hpos : 0 < dsts.count v := by
          rcases Nat.eq_zero_or_pos (dsts.count v) with h0 | h0
          · exact absurd (by exact_mod_cast h0) hcnt
          · exact h0
        exact ⟨List.count_pos_iff.mp hpos, by omega⟩
  · -- preds_done
    intro k hk u hu
    rw [List.length_append, List.length_singleton] at hk
    by_cases hklt : k < em.length
    · have hget : (em ++ [x]).get ⟨k, by simp; omega⟩ = em.get ⟨k, hklt⟩ := by
        exact List.get_append k hklt
      rw [List.take_append_of_le_length (by omega)]
      apply inv.preds_done k hklt u
      rw [← hget]
      exact hu
    · have hkeq : k = em.length := by omega
      subst hkeq
      have hget : (em ++ [x]).get ⟨em.length, by simp⟩ = x := by
        simp
      rw [hget] at hu
      rw [List.take_append_of_le_length (le_refl _), List.take_length]
      by_contra huem
      have hle := count_le_remIndeg edges em u x hkeys huem
      omega


theorem prioLe_trans (steps : List ExecutionStep) : ∀ (a b c : String),
    prioLe steps a b = true → prioLe steps b c = true →
    prioLe steps a c = true := by
  intro a b c h1 h2
  simp only [prioLe, decide_eq_true_eq] at h1 h2 ⊢
  omega

theorem prioLe_total (steps : List ExecutionStep) : ∀ (a b : String),
    (prioLe steps a b || prioLe steps b a) = true := by
  intro a b
  simp only [prioLe, Bool.or_eq_true, decide_eq_true_eq]
  omega

theorem KahnInv_perm (edges : List (String × List String)) (ids : List String)
    (indeg : String → Int) (q q2 em : List String)
    (inv : KahnInv edges ids indeg q em) (hperm : q.Perm q2) :
    KahnInv edges ids indeg q2 em := by
  refine ⟨?_, ?_, inv.indeg_eq, ?_, inv.preds_done⟩
  · exact ((hperm.append_left em).nodup_iff).mp inv.nodup
  · intro v hv
    rcases List.mem_append.mp hv with h1 | h1
    · exact inv.subset v (by simp [h1])
    · exact inv.subset v (by simp [hperm.mem_iff.mpr h1])
  · intro v hvids
    rw [← hperm.mem_iff]
    exact inv.queue_iff v hvids

theorem KahnEnd_of_inv (edges : List (String × List String))
    (ids : List String) (indeg : String → Int) (em : List String)
    (inv : KahnInv edges ids indeg [] em) : KahnEnd edges ids em := by
  refine ⟨?_, ?_, inv.preds_done, ?_⟩
  · have := inv.nodup
    rw [List.append_nil] at this
    exact this
  · intro v hv
    exact inv.subset v (by simp [hv])
  · intro v hvids hvem h0
    have := (inv.queue_iff v hvids).mpr ⟨hvem, h0⟩
    cases this

theorem inv_length_le (edges : List (String × List String))
    (ids : List String) (indeg : String → Int) (q em : List String)
    (inv : KahnInv edges ids indeg q em) :
    em.length + q.length ≤ ids.length := by
  have h1 := List.subperm_of_subset inv.nodup inv.subset
  have h2 := h1.length_le
  simpa using h2

theorem kahnCount_run (edges : List (String × List String))
    (ids : List String) (hkeys : (edges.map Prod.fst).Nodup)
    (hclosed : ∀ p ∈ edges, p.1 ∈ ids ∧ ∀ d ∈ p.2, d ∈ ids) :
    ∀ (fuel : Nat) (indeg : String → Int) (q em : List String),
    KahnInv edges ids indeg q em →
    ids.length ≤ fuel + em.length →
    KahnEnd edges ids (em ++ kahnCount edges fuel indeg q) := by
  intro fuel
  induction fuel with
  | zero =>
    intro indeg q em inv hfuel
    cases q with
    | nil =>
      simp only [kahnCount, List.append_nil]
      exact KahnEnd_of_inv edges ids indeg em inv
    | cons x rest =>
      exfalso
      have := inv_length_le edges ids indeg (x :: rest) em inv
      simp only [List.length_cons] at this
      omega
  | succ n ih =>
    intro indeg q em inv hfuel
    cases q with
    | nil =>
      simp only [kahnCount, List.append_nil]
      exact KahnEnd_of_inv edges ids indeg em inv
    | cons x rest =>
      have hstep := kahn_step edges ids hkeys hclosed indeg x rest em inv
      have hrec := ih (decrAll indeg (edgeLookup edges x)).1
        (rest ++ (decrAll indeg (edgeLookup edges x)).2) (em ++ [x]) hstep
        (by simp only [List.length_append, List.length_singleton]; omega)
      simp only [kahnCount]
      have : em ++ x :: kahnCount edges n (decrAll indeg (edgeLookup edges x)).1
          (rest ++ (decrAll indeg (edgeLookup edges x)).2)
          = (em ++ [x]) ++ kahnCount edges n (decrAll indeg (edgeLookup edges x)).1
            (rest ++ (decrAll indeg (edgeLookup edges x)).2) := by
        simp
      rw [this]
      exact hrec

theorem prioHist_extend (steps : List ExecutionStep)
    (edges : List (String × List String)) (ids : List String)
    (em : List String) (x : String)
    (hist : PrioHist steps edges ids em)
    (hnew : ∀ w ∈ ids, w ∉ em → remIndeg edges em w = 0 →
      prioOf steps x ≤ prioOf steps w) :
    PrioHist steps edges ids (em ++ [x]) := by
  intro k hk w hwids hwtake hwrem
  rw [List.length_append, List.length_singleton] at hk
  by_cases hklt : k < em.length
  · have hget : (em ++ [x]).get ⟨k, by simp; omega⟩ = em.get ⟨k, hklt⟩ :=
      List.get_append k hklt
    rw [hget]
    rw [List.take_append_of_le_length (by omega)] at hwtake hwrem
    exact hist k hklt w hwids hwtake hwrem
  · have hkeq : k = em.length := by omega
    subst hkeq
    have hget : (em ++ [x]).get ⟨em.length, by simp⟩ = x := by simp
    rw [hget]
    rw [List.take_append_of_le_length (le_refl _), List.take_length]
      at hwtake hwrem
    exact hnew w hwids hwtake hwrem

theorem kahnOrder_run (edges : List (String × List String))
    (steps : List ExecutionStep) (ids : List String)
    (hkeys : (edges.map Prod.fst).Nodup)
    (hclosed : ∀ p ∈ edges, p.1 ∈ ids ∧ ∀ d ∈ p.2, d ∈ ids) :
    ∀ (fuel : Nat) (indeg : String → Int) (q em : List String),
    KahnInv edges ids indeg q em →
    SortedQ steps q →
    PrioHist steps edges ids em →
    ids.length ≤ fuel + em.length →
    KahnEnd edges ids (em ++ kahnOrder edges steps fuel indeg q) ∧
      PrioHist steps edges ids (em ++ kahnOrder edges steps fuel indeg q) := by
  intro fuel
  induction fuel with
  | zero =>
    intro indeg q em inv hsort hist hfuel
    cases q with
    | nil =>
      simp only [kahnOrder, List.append_nil]
      exact ⟨KahnEnd_of_inv edges ids indeg em inv, hist⟩
    | cons x rest =>
      exfalso
      have := inv_length_le edges ids indeg (x :: rest) em inv
      simp only [List.length_cons] at this
      omega
  | succ n ih =>
    intro indeg q em inv hsort hist hfuel
    cases q with
    | nil =>
      simp only [kahnOrder, List.append_nil]
      exact ⟨KahnEnd_of_inv edges ids indeg em inv, hist⟩
    | cons x rest =>
      have hstep := kahn_step edges ids hkeys hclosed indeg x rest em inv
      have hperm : (rest ++ (decrAll indeg (edgeLookup edges x)).2).Perm
          ((rest ++ (decrAll indeg (edgeLookup edges x)).2).mergeSort
            (prioLe steps)) :=
        (List.mergeSort_perm _ _).symm
      have hstep2 := KahnInv_perm edges ids _ _ _ _ hstep hperm
      have hsort2 : SortedQ steps
          ((rest ++ (decrAll indeg (edgeLookup edges x)).2).mergeSort
            (prioLe steps)) :=
        List.sorted_mergeSort (prioLe_trans steps) (prioLe_total steps) _
      have hhist2 : PrioHist steps edges ids (em ++ [x]) := by
        apply prioHist_extend steps edges ids em x hist
        intro w hwids hwem hwrem
        have hwq := (inv.queue_iff w hwids).mpr ⟨hwem, hwrem⟩
        rcases List.mem_cons.mp hwq with h1 | h1
        · subst h1
          exact le_refl _
        · have hp := List.pairwise_cons.mp hsort
          have := hp.1 w h1
          simp only [prioLe, decide_eq_true_eq] at this
          exact this
      have hrec := ih (decrAll indeg (edgeLookup edges x)).1 _ (em ++ [x])
        hstep2 hsort2 hhist2
        (by simp only [List.length_append, List.length_singleton]; omega)
      simp only [kahnOrder]
      have heq : em ++ x :: kahnOrder edges steps n
          (decrAll indeg (edgeLookup edges x)).1
          ((rest ++ (decrAll indeg (edgeLookup edges x)).2).mergeSort
            (prioLe steps))
          = (em ++ [x]) ++ kahnOrder edges steps n
            (decrAll indeg (edgeLookup edges x)).1
            ((rest ++ (decrAll indeg (edgeLookup edges x)).2).mergeSort
              (prioLe steps)) := by
        simp
      rw [heq]
      exact hrec

theorem insertKey_fold_nodup (l : List String) : ∀ acc : List String,
    acc.Nodup → (l.foldl insertKey acc).Nodup := by
  induction l with
  | nil => intro acc h; exact h
  | cons a tl ih =>
    intro acc h
    simp only [List.foldl_cons]
    apply ih
    unfold insertKey
    by_cases hm : a ∈ acc
    · simpa [hm] using h
    · simp only [if_neg hm]
      rw [List.nodup_append]
      exact ⟨h, List.nodup_singleton a, fun b hb hb2 => by
        rw [List.mem_singleton] at hb2
        subst hb2
        exact hm hb⟩

theorem insertKey_fold_mem (l : List String) : ∀ (acc : List String)
    (x : String), x ∈ l.foldl insertKey acc ↔ x ∈ acc ∨ x ∈ l := by
  induction l with
  | nil => intro acc x; simp
  | cons a tl ih =>
    intro acc x
    simp only [List.foldl_cons, ih, insertKey]
    by_cases hm : a ∈ acc
    · simp only [if_pos hm, List.mem_cons]
      constructor
      · rintro (h | h)
        · exact Or.inl h
        · exact Or.inr (Or.inr h)
      · rintro (h | h | h)
        · exact Or.inl h
        · subst h; exact Or.inl hm
        · exact Or.inr h
    · simp only [if_neg hm, List.mem_append, List.mem_singleton,
        List.mem_cons]
      tauto

theorem edgesFold_nodup (edges : List (String × List String)) :
    ∀ acc : List String, acc.Nodup →
    (edges.foldl (fun ks p => p.2.foldl insertKey ks) acc).Nodup := by
  induction edges with
  | nil => intro acc h; exact h
  | cons p tl ih =>
    intro acc h
    simp only [List.foldl_cons]
    exact ih _ (insertKey_fold_nodup p.2 acc h)

theorem edgesFold_mem (edges : List (String × List String)) :
    ∀ (acc : List String) (x : String),
    x ∈ edges.foldl (fun ks p => p.2.foldl insertKey ks) acc ↔
      x ∈ acc ∨ ∃ p ∈ edges, x ∈ p.2 := by
  induction edges with
  | nil => intro acc x; simp
  | cons p tl ih =>
    intro acc x
    simp only [List.foldl_cons, ih, insertKey_fold_mem, List.mem_cons]
    constructor
    · rintro ((h | h) | ⟨q, hq, hx⟩)
      · exact Or.inl h
      · exact Or.inr ⟨p, Or.inl rfl, h⟩
      · exact Or.inr ⟨q, Or.inr hq, hx⟩
    · rintro (h | ⟨q, hq | hq, hx⟩)
      · exact Or.inl (Or.inl h)
      · subst hq; exact Or.inl (Or.inr hx)
      · exact Or.inr ⟨q, hq, hx⟩

theorem indegKeys_nodup (g : ExecutionGraph) : (indegKeys g).Nodup :=
  edgesFold_nodup g.edges _ (insertKey_fold_nodup (stepIds g.steps) [] List.nodup_nil)

theorem indegKeys_mem (g : ExecutionGraph) (x : String) :
    x ∈ indegKeys g ↔ x ∈ stepIds g.steps ∨ ∃ p ∈ g.edges, x ∈ p.2 := by
  unfold indegKeys
  rw [edgesFold_mem, insertKey_fold_mem]
  simp

theorem kahnCount_length_le (edges : List (String × List String)) :
    ∀ (fuel : Nat) (indeg : String → Int) (q : List String),
    (kahnCount edges fuel indeg q).length ≤ fuel := by
  intro fuel
  induction fuel with
  | zero =>
    intro indeg q
    cases q <;> simp [kahnCount]
  | succ n ih =>
    intro indeg q
    cases q with
    | nil => simp [kahnCount]
    | cons x rest =>
      simp only [kahnCount, List.length_cons]
      have := ih (decrAll indeg (edgeLookup edges x)).1
        (rest ++ (decrAll indeg (edgeLookup edges x)).2)
      omega

theorem validate_unpack (g : ExecutionGraph) (hv : g.validate = true) :
    g.steps ≠ [] ∧
    (∀ p ∈ g.edges, p.1 ∈ stepIds g.steps ∧ ∀ d ∈ p.2, d ∈ stepIds g.steps) ∧
    (kahnCount g.edges (indegKeys g).length (indegInit g.edges)
      ((indegKeys g).filter (fun sid => indegInit g.edges sid == 0))).length
      = g.steps.length := by
  unfold ExecutionGraph.validate at hv
  simp only [Bool.and_eq_true, Bool.not_eq_true', List.all_eq_true,
    beq_iff_eq] at hv
  obtain ⟨⟨h1, h2⟩, h3⟩ := hv
  refine ⟨?_, ?_, h3⟩
  · intro hc
    rw [hc] at h1
    simp at h1
  · intro p hp
    have hx := h2 p hp
    constructor
    · have := hx.1
      simpa [List.contains, List.elem_iff] using this
    · intro d hd
      have := hx.2 d hd
      simpa [List.contains, List.elem_iff] using this

theorem keys_subset_ids (g : ExecutionGraph)
    (hclosed : ∀ p ∈ g.edges,
      p.1 ∈ stepIds g.steps ∧ ∀ d ∈ p.2, d ∈ stepIds g.steps) :
    ∀ x ∈ indegKeys g, x ∈ stepIds g.steps := by
  intro x hx
  rcases (indegKeys_mem g x).mp hx with h | ⟨p, hp, hd⟩
  · exact h
  · exact (hclosed p hp).2 x hd

theorem ids_subset_keys (g : ExecutionGraph) :
    ∀ x ∈ stepIds g.steps, x ∈ indegKeys g := by
  intro x hx
  exact (indegKeys_mem g x).mpr (Or.inl hx)

theorem validate_ids_nodup (g : ExecutionGraph) (hv : g.validate = true) :
    (stepIds g.steps).Nodup := by
  obtain ⟨_, hclosed, h3⟩ := validate_unpack g hv
  have hlen1 : (stepIds g.steps).length = g.steps.length := by
    simp [stepIds]
  have hle1 : g.steps.length ≤ (indegKeys g).length := by
    rw [← h3]
    exact kahnCount_length_le g.edges _ _ _
  have hsub : ∀ x ∈ indegKeys g, x ∈ (stepIds g.steps).dedup := by
    intro x hx
    rw [List.mem_dedup]
    exact keys_subset_ids g hclosed x hx
  have hle2 : (indegKeys g).length ≤ (stepIds g.steps).dedup.length :=
    (List.subperm_of_subset (indegKeys_nodup g) hsub).length_le
  have hle3 : (stepIds g.steps).dedup.length ≤ (stepIds g.steps).length :=
    (List.dedup_sublist (stepIds g.steps)).length_le
  have hdedup : (stepIds g.steps).dedup = stepIds g.steps :=
    (List.dedup_sublist (stepIds g.steps)).eq_of_length (by omega)
  exact List.dedup_eq_self.mp hdedup

theorem validate_ids_le_keys (g : ExecutionGraph) (hv : g.validate = true) :
    (stepIds g.steps).length ≤ (indegKeys g).length := by
  obtain ⟨_, _, h3⟩ := validate_unpack g hv
  have hlen1 : (stepIds g.steps).length = g.steps.length := by simp [stepIds]
  rw [hlen1, ← h3]
  exact kahnCount_length_le g.edges _ _ _

theorem initial_inv (g : ExecutionGraph)
    (hclosed : ∀ p ∈ g.edges,
      p.1 ∈ stepIds g.steps ∧ ∀ d ∈ p.2, d ∈ stepIds g.steps) :
    KahnInv g.edges (stepIds g.steps) (indegInit g.edges)
      ((indegKeys g).filter (fun sid => indegInit g.edges sid == 0)) [] := by
  refine ⟨?_, ?_, ?_, ?_, ?_⟩
  · simp only [List.nil_append]
    exact (indegKeys_nodup g).filter _
  · intro v hv
    simp only [List.nil_append, List.mem_filter] at hv
    exact keys_subset_ids g hclosed v hv.1
  · intro v
    exact (remIndeg_nil g.edges v).symm
  · intro v hvids
    simp only [List.mem_filter, List.not_mem_nil, not_false_eq_true,
      true_and, beq_iff_eq, remIndeg_nil]
    constructor
    · rintro ⟨_, h⟩
      exact h
    · intro h
      exact ⟨ids_subset_keys g v hvids, h⟩
  · intro k hk
    simp at hk


theorem count_trace_end (g : ExecutionGraph) (hv : g.validate = true)
    (hkeys : (g.edges.map Prod.fst).Nodup) :
    KahnEnd g.edges (stepIds g.steps)
      (kahnCount g.edges (indegKeys g).length (indegInit g.edges)
        ((indegKeys g).filter (fun sid => indegInit g.edges sid == 0))) ∧
    (kahnCount g.edges (indegKeys g).length (indegInit g.edges)
        ((indegKeys g).filter (fun sid => indegInit g.edges sid == 0))).Perm
      (stepIds g.steps) := by
  obtain ⟨hne, hclosed, h3⟩ := validate_unpack g hv
  have hclosed2 : ∀ p ∈ g.edges,
      p.1 ∈ stepIds g.steps ∧ ∀ d ∈ p.2, d ∈ stepIds g.steps := hclosed
  have hinv := initial_inv g hclosed2
  have hrun := kahnCount_run g.edges (stepIds g.steps) hkeys hclosed2
    (indegKeys g).length (indegInit g.edges)
    ((indegKeys g).filter (fun sid => indegInit g.edges sid == 0)) [] hinv
    (by simpa using validate_ids_le_keys g hv)
  simp only [List.nil_append] at hrun
  refine ⟨hrun, ?_⟩
  have hsub := List.subperm_of_subset hrun.nodup hrun.subset
  apply hsub.perm_of_length_le
  have hlen1 : (stepIds g.steps).length = g.steps.length := by simp [stepIds]
  omega

theorem order_trace_end (g : ExecutionGraph) (hv : g.validate = true)
    (hkeys : (g.edges.map Prod.fst).Nodup) :
    KahnEnd g.edges (stepIds g.steps)
      (kahnOrder g.edges g.steps (indegKeys g).length (indegInit g.edges)
        (((indegKeys g).filter
          (fun sid => indegInit g.edges sid == 0)).mergeSort
            (prioLe g.steps))) ∧
    PrioHist g.steps g.edges (stepIds g.steps)
      (kahnOrder g.edges g.steps (indegKeys g).length (indegInit g.edges)
        (((indegKeys g).filter
          (fun sid => indegInit g.edges sid == 0)).mergeSort
            (prioLe g.steps))) := by
  obtain ⟨hne, hclosed, h3⟩ := validate_unpack g hv
  have hclosed2 : ∀ p ∈ g.edges,
      p.1 ∈ stepIds g.steps ∧ ∀ d ∈ p.2, d ∈ stepIds g.steps := hclosed
  have hinv0 := initial_inv g hclosed2
  have hinv := KahnInv_perm g.edges (stepIds g.steps) (indegInit g.edges)
    ((indegKeys g).filter (fun sid => indegInit g.edges sid == 0))
    (((indegKeys g).filter
      (fun sid => indegInit g.edges sid == 0)).mergeSort (prioLe g.steps))
    [] hinv0 (List.mergeSort_perm _ (prioLe g.steps)).symm
  have hsort : SortedQ g.steps
      (((indegKeys g).filter (fun sid => indegInit g.edges sid == 0)).mergeSort
        (prioLe g.steps)) :=
    List.sorted_mergeSort (prioLe_trans g.steps) (prioLe_total g.steps) _
  have hhist0 : PrioHist g.steps g.edges (stepIds g.steps) [] := by
    intro k hk
    simp at hk
  have hrun := kahnOrder_run g.edges g.steps (stepIds g.steps) hkeys hclosed2
    (indegKeys g).length (indegInit g.edges) _ [] hinv hsort hhist0
    (by simpa using validate_ids_le_keys g hv)
  simpa using hrun

theorem trace_complete (edges : List (String × List String))
    (ids : List String) (hkeys : (edges.map Prod.fst).Nodup)
    (V T : List String) (hVend : KahnEnd edges ids V) (hVperm : V.Perm ids)
    (hTend : KahnEnd edges ids T) : ∀ v ∈ ids, v ∈ T := by
  have main : ∀ (k : Nat) (hk : k < V.length), V.get ⟨k, hk⟩ ∈ T := by
    intro k
    induction k using Nat.strong_induction_on with
    | _ k ihk =>
      intro hk
      by_contra hvT
      have hvids : V.get ⟨k, hk⟩ ∈ ids := hVend.subset _ (V.get_mem k hk)
      apply hTend.stuck (V.get ⟨k, hk⟩) hvids hvT
      apply List.sum_eq_zero
      intro t ht
      simp only [List.mem_map, List.mem_filter] at ht
      obtain ⟨p, ⟨hpmem, hpT⟩, rfl⟩ := ht
      rw [decide_eq_true_eq] at hpT
      by_contra hne
      have hpos : 0 < p.2.count (V.get ⟨k, hk⟩) := by
        rcases Nat.eq_zero_or_pos (p.2.count (V.get ⟨k, hk⟩)) with h0 | h0
        · exact absurd
            (show ((p.2.count (V.get ⟨k, hk⟩) : Int)) = 0 by exact_mod_cast h0)
            hne
        · exact h0
      have hlp : edgeLookup edges p.1 = p.2 :=
        edgeLookup_of_mem edges p hkeys hpmem
      have htake := hVend.preds_done k hk p.1 (by rw [hlp]; exact hpos)
      obtain ⟨j, hj, hjv⟩ := List.mem_take_iff_getElem.mp htake
      have hjk : j < k := lt_of_lt_of_le hj (min_le_left _ _)
      have hjlt : j < V.length := lt_of_lt_of_le hj (min_le_right _ _)
      have hmem := ihk j hjk hjlt
      rw [show V.get ⟨j, hjlt⟩ = p.1 from hjv] at hmem
      exact hpT hmem
  intro v hv
  have hvV : v ∈ V := hVperm.mem_iff.mpr hv
  obtain ⟨i, hi⟩ := List.mem_iff_get.mp hvV
  rw [← hi]
  exact main i.1 i.2


theorem nodup_map_inj {α β : Type} (f : α → β) (l : List α)
    (h : (l.map f).Nodup) :
    ∀ a ∈ l, ∀ b ∈ l, f a = f b → a = b := by
  induction l with
  | nil => intro a ha; cases ha
  | cons x tl ih =>
    simp only [List.map_cons, List.nodup_cons] at h
    intro a ha b hb hf
    rcases List.mem_cons.mp ha with h1 | h1 <;>
      rcases List.mem_cons.mp hb with h2 | h2
    · rw [h1, h2]
    · subst h1
      exact absurd (hf ▸ List.mem_map_of_mem f h2) h.1
    · subst h2
      exact absurd (hf ▸ List.mem_map_of_mem f h1) h.1
    · exact ih h.2 a h1 b h2 hf

theorem stepMapFind_eq (steps : List ExecutionStep)
    (hids : (stepIds steps).Nodup) (s : ExecutionStep) (hs : s ∈ steps) :
    stepMapFind steps s.step_id = some s := by
  unfold stepMapFind
  have hsome : (steps.reverse.find?
      (fun t => t.step_id == s.step_id)).isSome := by
    rw [List.find?_isSome]
    exact ⟨s, List.mem_reverse.mpr hs, by simp⟩
  obtain ⟨t, ht⟩ := Option.isSome_iff_exists.mp hsome
  rw [ht]
  have htmem : t ∈ steps := List.mem_reverse.mp (List.mem_of_find?_eq_some ht)
  have htid : t.step_id = s.step_id := by
    have := List.find?_some ht
    simpa using this
  have hids2 : (steps.map (fun x => x.step_id)).Nodup := by
    simpa [stepIds] using hids
  have := nodup_map_inj (fun x => x.step_id) steps hids2 t htmem s hs htid
  rw [this]

theorem filterMap_total_map {α β : Type} (f : α → Option β) (pj : β → α)
    (T : List α) (h : ∀ a ∈ T, ∃ b, f a = some b ∧ pj b = a) :
    (T.filterMap f).map pj = T := by
  induction T with
  | nil => rfl
  | cons a tl ih =>
    obtain ⟨b, hb, hpj⟩ := h a (List.mem_cons_self a tl)
    simp only [List.filterMap_cons, hb, List.map_cons, hpj]
    rw [ih (fun x hx => h x (List.mem_cons_of_mem a hx))]

theorem filterMap_eq_self {α : Type} (f : α → Option α) (l : List α)
    (h : ∀ a ∈ l, f a = some a) : l.filterMap f = l := by
  induction l with
  | nil => rfl
  | cons a tl ih =>
    simp only [List.filterMap_cons, h a (List.mem_cons_self a tl)]
    rw [ih (fun x hx => h x (List.mem_cons_of_mem a hx))]

theorem indexOf_lt_of_mem_take {α : Type} [DecidableEq α] (l : List α) :
    ∀ (k : Nat) (a : α), a ∈ l.take k → l.indexOf a < k := by
  induction l with
  | nil => intro k a h; simp at h
  | cons x tl ih =>
    intro k a h
    cases k with
    | zero => simp at h
    | succ n =>
      rw [List.take_succ_cons] at h
      rcases List.mem_cons.mp h with h1 | h1
      · subst h1
        rw [List.indexOf_cons_self]
        omega
      · by_cases hax : a = x
        · subst hax
          rw [List.indexOf_cons_self]
          omega
        · rw [List.indexOf_cons_ne tl (fun hc => hax hc.symm)]
          have := ih n a h1
          omega


theorem prioOf_eq (steps : List ExecutionStep)
    (hids : (stepIds steps).Nodup) (w : ExecutionStep) (hw : w ∈ steps) :
    prioOf steps w.step_id = w.priority := by
  unfold prioOf
  rw [stepMapFind_eq steps hids w hw]

/-- C2: on every graph accepted by `validate` (with the Python-dict
guarantee that edge keys are distinct), `get_execution_order` returns a
permutation of the steps in which every edge source precedes its
destination, and the step emitted at each position has minimal priority
among the steps that were ready (unemitted with all predecessors already
emitted) at that point. -/
theorem execution_order_correct (g : ExecutionGraph)
    (hkeys : (g.edges.map Prod.fst).Nodup)
    (hv : g.validate = true) :
    g.get_execution_order.Perm g.steps ∧
    (∀ p ∈ g.edges, ∀ d ∈ p.2,
      (g.get_execution_order.map (fun s => s.step_id)).indexOf p.1 <
        (g.get_execution_order.map (fun s => s.step_id)).indexOf d) ∧
    (∀ (k : Nat) (hk : k < g.get_execution_order.length) (w : ExecutionStep),
      w ∈ g.steps →
      w.step_id ∉ (g.get_execution_order.take k).map (fun s => s.step_id) →
      remIndeg g.edges
        ((g.get_execution_order.take k).map (fun s => s.step_id))
        w.step_id = 0 →
      (g.get_execution_order.get ⟨k, hk⟩).priority ≤ w.priority) := by
  obtain ⟨hne, hclosed, h3⟩ := validate_unpack g hv
  have hids := validate_ids_nodup g hv
  obtain ⟨hTend, hHist⟩ := order_trace_end g hv hkeys
  obtain ⟨hVend, hVperm⟩ := count_trace_end g hv hkeys
  set T := kahnOrder g.edges g.steps (indegKeys g).length (indegInit g.edges)
    (((indegKeys g).filter
      (fun sid => indegInit g.edges sid == 0)).mergeSort
        (prioLe g.steps)) with hT
  have hcomplete := trace_complete g.edges (stepIds g.steps) hkeys _ T
    hVend hVperm hTend
  have hTperm : T.Perm (stepIds g.steps) := by
    have h1 := List.subperm_of_subset hTend.nodup hTend.subset
    have h2 := List.subperm_of_subset hids hcomplete
    exact h1.perm_of_length_le h2.length_le
  have hLdef : g.get_execution_order = T.filterMap (stepMapFind g.steps) := by
    simp only [ExecutionGraph.get_execution_order, hT]
  have hmem_steps : ∀ sid ∈ stepIds g.steps,
      ∃ s, stepMapFind g.steps sid = some s ∧ s.step_id = sid := by
    intro sid hsid
    simp only [stepIds, List.mem_map] at hsid
    obtain ⟨s, hs, rfl⟩ := hsid
    exact ⟨s, stepMapFind_eq g.steps hids s hs, rfl⟩
  have hmapT : (g.get_execution_order.map (fun s => s.step_id)) = T := by
    rw [hLdef]
    exact filterMap_total_map (stepMapFind g.steps) (fun s => s.step_id) T
      (fun sid hsid => hmem_steps sid (hTend.subset sid hsid))
  have hLperm : g.get_execution_order.Perm g.steps := by
    rw [hLdef]
    have h1 := hTperm.filterMap (stepMapFind g.steps)
    have h2 : (stepIds g.steps).filterMap (stepMapFind g.steps) = g.steps := by
      unfold stepIds
      rw [List.filterMap_map]
      apply filterMap_eq_self
      intro s hs
      exact stepMapFind_eq g.steps hids s hs
    rw [h2] at h1
    exact h1
  have hLlen : g.get_execution_order.length = T.length := by
    rw [← hmapT, List.length_map]
  refine ⟨hLperm, ?_, ?_⟩
  · intro p hp d hd
    rw [hmapT]
    have hdids : d ∈ stepIds g.steps := (hclosed p hp).2 d hd
    have hdT : d ∈ T := hcomplete d hdids
    have hk : T.indexOf d < T.length := List.indexOf_lt_length.mpr hdT
    have hget : T.get ⟨T.indexOf d, hk⟩ = d := List.indexOf_get hk
    have hlp : edgeLookup g.edges p.1 = p.2 :=
      edgeLookup_of_mem g.edges p hkeys hp
    have htake := hTend.preds_done (T.indexOf d) hk p.1
      (by rw [hlp, hget]; exact List.count_pos_iff.mpr hd)
    exact indexOf_lt_of_mem_take T (T.indexOf d) p.1 htake
  · intro k hk w hw hnotin hrem
    have hkT : k < T.length := by omega
    have hwid : w.step_id ∈ stepIds g.steps := by
      simp only [stepIds, List.mem_map]
      exact ⟨w, hw, rfl⟩
    have htakeT : (g.get_execution_order.take k).map (fun s => s.step_id)
        = T.take k := by
      rw [List.map_take, hmapT]
    simp only [htakeT] at hnotin hrem
    have hprio := hHist k hkT w.step_id hwid hnotin hrem
    have hgetT : T.get ⟨k, hkT⟩
        = (g.get_execution_order.get ⟨k, hk⟩).step_id := by
      rw [List.get_eq_getElem, List.get_eq_getElem,
        List.getElem_of_eq hmapT.symm hkT, List.getElem_map]
    rw [hgetT] at hprio
    have hLk : g.get_execution_order.get ⟨k, hk⟩ ∈ g.steps :=
      hLperm.mem_iff.mp (g.get_execution_order.get_mem k hk)
    rw [prioOf_eq g.steps hids _ hLk, prioOf_eq g.steps hids w hw] at hprio
    exact hprio

/-! ## C10: JSON round trip -/

theorem mapM_map_id {α β : Type} (g : α → β) (f : β → Option α) (l : List α)
    (h : ∀ a ∈ l, f (g a) = some a) : (l.map g).mapM f = some l := by
  induction l with
  | nil => rfl
  | cons a t ih =>
    simp only [List.map_cons, List.mapM_cons, h a (by simp), Option.bind_eq_bind,
      Option.some_bind, ih (fun x hx => h x (by simp [hx]))]
    rfl

theorem stepFromJson_stepToJson (s : ExecutionStep) (h : stepValid s = true) :
    stepFromJson (stepToJson s) = some s := by
  obtain ⟨sid, nm, p, st, ed, alt⟩ := s
  simp only [stepToJson, stepFromJson, jsonGet, List.find?]
  simp only [beq_self_eq_true]
  cases ed <;> cases alt <;> simp_all [Rat.den_intCast, Rat.num_intCast]

theorem edgeListFromJson_round (ds : List String) :
    edgeListFromJson (Json.arr (ds.map Json.str)) = some ds := by
  simp only [edgeListFromJson]
  exact mapM_map_id _ _ _ (fun a _ => rfl)

/-- C10 -/
theorem graph_json_round_trip (g : ExecutionGraph)
    (h : ∀ s ∈ g.steps, stepValid s = true) :
    ExecutionGraph.from_json (ExecutionGraph.to_json g) = some g := by
  have h1 : List.mapM.loop stepFromJson (g.steps.map stepToJson) [] = some g.steps :=
    mapM_map_id _ _ _ (fun s hs => stepFromJson_stepToJson s (h s hs))
  have h2 : List.mapM.loop
      (fun p => match edgeListFromJson p.2 with
        | some ds => some (p.1, ds)
        | none => none)
      (g.edges.map (fun p => (p.1, Json.arr (p.2.map Json.str)))) []
      = some g.edges :=
    mapM_map_id _ _ _ (fun p _ => by simp [edgeListFromJson_round p.2])
  have h3 : List.mapM.loop edgeListFromJson
      (g.parallelizable_groups.map (fun grp => Json.arr (grp.map Json.str))) []
      = some g.parallelizable_groups :=
    mapM_map_id _ _ _ (fun grp _ => edgeListFromJson_round grp)
  simp only [ExecutionGraph.to_json, ExecutionGraph.from_json, jsonGet, List.find?]
  simp [h1, h2, h3]

theorem execution_order_correct_witness :
    (gW.edges.map Prod.fst).Nodup ∧ gW.validate = true ∧
    (gW.get_execution_order.Perm gW.steps ∧
    (∀ p ∈ gW.edges, ∀ d ∈ p.2,
      (gW.get_execution_order.map (fun s => s.step_id)).indexOf p.1 <
        (gW.get_execution_order.map (fun s => s.step_id)).indexOf d) ∧
    (∀ (k : Nat) (hk : k < gW.get_execution_order.length) (w : ExecutionStep),
      w ∈ gW.steps →
      w.step_id ∉ (gW.get_execution_order.take k).map (fun s => s.step_id) →
      remIndeg gW.edges
        ((gW.get_execution_order.take k).map (fun s => s.step_id))
        w.step_id = 0 →
      (gW.get_execution_order.get ⟨k, hk⟩).priority ≤ w.priority)) :=
  ⟨by decide, by decide, execution_order_correct gW (by decide) (by decide)⟩

theorem graph_json_round_trip_witness :
    (∀ s ∈ gW.steps, stepValid s = true) ∧
    ExecutionGraph.from_json (ExecutionGraph.to_json gW) = some gW :=
  ⟨by decide, graph_json_round_trip gW (by decide)⟩

theorem sum_sq_shift (l : List ℚ) (c : ℚ) :
    (l.map (fun d => (d - c) ^ 2)).sum
      = (l.map (fun d => d ^ 2)).sum - 2 * c * l.sum + c ^ 2 * l.length := by
  induction l with
  | nil => simp
  | cons x tl ih =>
    simp only [List.map_cons, List.sum_cons, List.length_cons, ih]
    push_cast
    ring

theorem welford_inv (t : String) (records : List TaskRecord) :
    (record_sequence t records).total_count = records.length ∧
    (record_sequence t records).avg_duration_ms
      = (records.map (fun r => r.duration_ms)).sum / records.length ∧
    (record_sequence t records).duration_variance
      = ((records.map (fun r => r.duration_ms ^ 2)).sum
          - (records.map (fun r => r.duration_ms)).sum ^ 2 / records.length)
        / records.length := by
  induction records using List.reverseRecOn with
  | nil => simp [record_sequence, LearningMetrics.init]
  | append_singleton rs r ih =>
    obtain ⟨ihc, ihm, ihv⟩ := ih
    have hfold : record_sequence t (rs ++ [r])
        = update_aggregates (record_sequence t rs) r := by
      simp [record_sequence]
    rcases List.eq_nil_or_concat rs with hnil | ⟨L, b, hLb⟩
    · subst hnil
      simp [record_sequence, update_aggregates, LearningMetrics.init]
    · have hlen : 1 ≤ rs.length := by rw [hLb]; simp
      have hn0 : (rs.length : ℚ) ≠ 0 := by
        exact_mod_cast Nat.pos_iff_ne_zero.mp (by omega)
      have hn1 : ((rs.length : ℚ) + 1) ≠ 0 := by positivity
      have hcond : 1 < (record_sequence t rs).total_count + 1 := by
        rw [ihc]; omega
      rw [hfold]
      simp only [update_aggregates, if_pos hcond, List.map_append,
        List.sum_append, List.length_append, List.map_cons, List.map_nil,
        List.sum_cons, List.sum_nil, List.length_cons, List.length_nil]
      refine ⟨by rw [ihc], ?_, ?_⟩
      · rw [ihc, ihm]
        push_cast
        field_simp
        ring
      · rw [ihc, ihm, ihv]
        push_cast
        field_simp
        ring


/-- C3: after recording any non-empty sample sequence for one task type
starting from no prior data, the stored mean is the arithmetic mean of the
samples and the stored variance is their closed-form population variance;
a single sample yields variance 0. -/
theorem welford_correct (t : String) (records : List TaskRecord)
    (hne : records ≠ []) :
    (record_sequence t records).avg_duration_ms
      = (records.map (fun r => r.duration_ms)).sum / records.length ∧
    (record_sequence t records).duration_variance
      = (records.map (fun r => (r.duration_ms
          - (records.map (fun r2 => r2.duration_ms)).sum
            / records.length) ^ 2)).sum / records.length ∧
    (records.length = 1 → (record_sequence t records).duration_variance = 0)
    := by
  obtain ⟨hc, hm, hv⟩ := welford_inv t records
  have hn0 : (records.length : ℚ) ≠ 0 := by
    have : records.length ≠ 0 := fun hc2 => hne (List.length_eq_zero.mp hc2)
    exact_mod_cast this
  refine ⟨hm, ?_, ?_⟩
  · have hmap : records.map (fun r => (r.duration_ms
        - (records.map (fun r2 => r2.duration_ms)).sum
          / records.length) ^ 2)
        = (records.map (fun r => r.duration_ms)).map (fun d => (d
          - (records.map (fun r2 => r2.duration_ms)).sum
            / records.length) ^ 2) := by
      rw [List.map_map]
      rfl
    rw [hmap, sum_sq_shift, List.length_map, hv,
      show (List.map (fun d => d ^ 2)
          (List.map (fun r => r.duration_ms) records)).sum
        = (List.map (fun r => r.duration_ms ^ 2) records).sum by
        rw [List.map_map]
        rfl]
    field_simp
    ring
  · intro h1
    obtain ⟨r, hr⟩ := List.length_eq_one.mp h1
    subst hr
    rw [hv]
    simp


theorem welford_correct_witness :
    recordsW ≠ [] ∧
    ((record_sequence "doc" recordsW).avg_duration_ms
      = (recordsW.map (fun r => r.duration_ms)).sum / recordsW.length ∧
    (record_sequence "doc" recordsW).duration_variance
      = (recordsW.map (fun r => (r.duration_ms
          - (recordsW.map (fun r2 => r2.duration_ms)).sum
            / recordsW.length) ^ 2)).sum / recordsW.length ∧
    (recordsW.length = 1 →
      (record_sequence "doc" recordsW).duration_variance = 0)) :=
  ⟨by decide, welford_correct "doc" recordsW (by decide)⟩

theorem make_prediction_some (thr : ℚ) (tid tty : String)
    (e t pd p : ℚ) (h0 : 0 ≤ p) (h1 : p ≤ 1) (ht : 0 < t) :
    ∃ pr, make_prediction thr tid tty e t pd p = some pr ∧
      pr.probability = p := by
  unfold make_prediction
  rw [if_pos ⟨h0, h1, ht⟩]
  exact ⟨_, rfl, rfl⟩

/-- C4 (amended): for every input with a positive SLA threshold, `predict`
returns a prediction whose probability lies in [0,1], and the probability
is exactly 1 whenever `elapsed_minutes >= sla_threshold`. (The converse
direction of the original claim is false: see the counterexample.) -/
theorem predict_bounds (sqrtFn cdf : ℚ → ℚ) (thr : ℚ) (tid tty : String)
    (elapsed sla : ℚ) (hist : Option HistData) (hsla : 0 < sla) :
    ∃ pr, predict sqrtFn cdf thr tid tty elapsed sla hist = some pr ∧
      0 ≤ pr.probability ∧ pr.probability ≤ 1 ∧
      (sla ≤ elapsed → pr.probability = 1) := by
  unfold predict
  by_cases hbr : sla ≤ elapsed
  · rw [if_pos hbr]
    obtain ⟨pr, hpr, hp⟩ := make_prediction_some thr tid tty elapsed sla
      elapsed 1 (by norm_num) (by norm_num) hsla
    exact ⟨pr, hpr, by rw [hp]; norm_num, by rw [hp], fun _ => hp⟩
  · rw [if_neg hbr]
    have hfall : ∃ pr,
        predict_fallback thr tid tty elapsed sla = some pr ∧
        0 ≤ pr.probability ∧ pr.probability ≤ 1 := by
      unfold predict_fallback
      obtain ⟨pr, hpr, hp⟩ := make_prediction_some thr tid tty elapsed sla
        sla (max 0 (min 1 (if 0 < sla then elapsed / sla else 0)))
        (le_max_left _ _)
        (max_le (by norm_num) (min_le_left _ _)) hsla
      exact ⟨pr, hpr, by rw [hp]; exact ⟨le_max_left _ _,
        max_le (by norm_num) (min_le_left _ _)⟩⟩
    have hstat : ∀ data : HistData, ∃ pr,
        predict_statistical sqrtFn cdf thr tid tty elapsed sla data
          = some pr ∧ 0 ≤ pr.probability ∧ pr.probability ≤ 1 := by
      intro data
      unfold predict_statistical
      by_cases hvar : data.duration_variance ≤ 0
      · rw [if_pos hvar]
        by_cases havg : data.avg_duration_ms / 60000 < sla
        · rw [if_pos havg]
          obtain ⟨pr, hpr, hp⟩ := make_prediction_some thr tid tty elapsed
            sla (data.avg_duration_ms / 60000) 0 (le_refl 0) (by norm_num)
            hsla
          exact ⟨pr, hpr, by rw [hp]; norm_num⟩
        · rw [if_neg havg]
          obtain ⟨pr, hpr, hp⟩ := make_prediction_some thr tid tty elapsed
            sla (data.avg_duration_ms / 60000) 1 (by norm_num) (le_refl 1)
            hsla
          exact ⟨pr, hpr, by rw [hp]; norm_num⟩
      · rw [if_neg hvar]
        obtain ⟨pr, hpr, hp⟩ := make_prediction_some thr tid tty elapsed sla
          (data.avg_duration_ms / 60000)
          (max 0 (min 1 (if sqrtFn data.duration_variance / 60000 = 0 then
            (if data.avg_duration_ms / 60000 < sla then 0 else 1)
            else 1 - cdf ((sla - elapsed)
              / (sqrtFn data.duration_variance / 60000)))))
          (le_max_left _ _) (max_le (by norm_num) (min_le_left _ _)) hsla
        exact ⟨pr, hpr, by rw [hp]; exact ⟨le_max_left _ _,
          max_le (by norm_num) (min_le_left _ _)⟩⟩
    cases hist with
    | none =>
      obtain ⟨pr, hpr, h0, h1⟩ := hfall
      exact ⟨pr, hpr, h0, h1, fun hc => absurd hc hbr⟩
    | some data =>
      dsimp only
      by_cases hcnt : MIN_DATA_POINTS ≤ data.total_count
      · rw [if_pos hcnt]
        obtain ⟨pr, hpr, h0, h1⟩ := hstat data
        exact ⟨pr, hpr, h0, h1, fun hc => absurd hc hbr⟩
      · rw [if_neg hcnt]
        obtain ⟨pr, hpr, h0, h1⟩ := hfall
        exact ⟨pr, hpr, h0, h1, fun hc => absurd hc hbr⟩

theorem predict_bounds_witness :
    (0 : ℚ) < 10 ∧
    (∃ pr, predict (fun q => q) (fun q => q) (7/10) "t" "doc" 12 10 none
        = some pr ∧
      0 ≤ pr.probability ∧ pr.probability ≤ 1 ∧
      ((10 : ℚ) ≤ 12 → pr.probability = 1)) :=
  ⟨by norm_num,
    predict_bounds (fun q => q) (fun q => q) (7/10) "t" "doc" 12 10 none
      (by norm_num)⟩

/-- C4 counterexample: with zero-variance history whose mean reaches the
threshold, `predict` returns probability exactly 1 although
`elapsed_minutes < sla_threshold`, refuting the "returns 1.0 only if
elapsed >= sla" direction of the claim. -/
theorem predict_exactly_one_counterexample :
    (predict (fun q => q) (fun q => q) (7/10) "t" "doc" 0 10
        (some ⟨600000, 0, 3⟩)).map (fun pr => pr.probability) = some 1 ∧
    ¬ ((10 : ℚ) ≤ 0) := by
  constructor
  · simp only [predict, predict_statistical, make_prediction,
      MIN_DATA_POINTS]
    norm_num
  · norm_num

theorem complexityMap_bounds (c : String) :
    0 ≤ complexityMap c ∧ complexityMap c ≤ 1 := by
  unfold complexityMap
  split_ifs <;> norm_num

theorem impactMap_bounds (p : String) :
    0 ≤ impactMap p ∧ impactMap p ≤ 1 := by
  unfold impactMap
  split_ifs <;> norm_num

/-- C8 (amended): whenever the metadata `sla_risk` and the historical
`failure_rate` lie in [0,1] (the two inputs the code passes through
unclamped), `compute_score` returns a `RiskScore` whose four components
and composite all lie in [0,1] and the constructor check passes. Outside
that range the constructor raises: see the counterexample. -/
theorem compute_score_bounds (w1 w2 w3 w4 : ℚ) (tid : String)
    (meta : RiskMeta) (hist : Option RiskHist)
    (hsla : 0 ≤ meta.sla_risk.getD 0 ∧ meta.sla_risk.getD 0 ≤ 1)
    (hfail : 0 ≤ histFailureRate hist ∧ histFailureRate hist ≤ 1) :
    ∃ s, compute_score w1 w2 w3 w4 tid meta hist = some s ∧
      (0 ≤ s.sla_risk ∧ s.sla_risk ≤ 1) ∧
      (0 ≤ s.complexity ∧ s.complexity ≤ 1) ∧
      (0 ≤ s.impact ∧ s.impact ≤ 1) ∧
      (0 ≤ s.failure_rate ∧ s.failure_rate ≤ 1) ∧
      (0 ≤ s.composite_score ∧ s.composite_score ≤ 1) := by
  have hc := complexityMap_bounds (meta.classification.getD "simple")
  have hi := impactMap_bounds (meta.priority.getD "normal")
  have hcomp : 0 ≤ max 0 (min 1 (meta.sla_risk.getD 0 * w1
      + complexityMap (meta.classification.getD "simple") * w2
      + impactMap (meta.priority.getD "normal") * w3
      + histFailureRate hist * w4)) ∧
      max 0 (min 1 (meta.sla_risk.getD 0 * w1
      + complexityMap (meta.classification.getD "simple") * w2
      + impactMap (meta.priority.getD "normal") * w3
      + histFailureRate hist * w4)) ≤ 1 :=
    ⟨le_max_left _ _, max_le (by norm_num) (min_le_left _ _)⟩
  unfold compute_score
  rw [if_pos]
  · refine ⟨_, rfl, hsla, hc, hi, hfail, hcomp⟩
  · unfold riskScoreValid
    simp only [Bool.and_eq_true, decide_eq_true_eq]
    exact ⟨⟨⟨⟨hsla, hc⟩, hi⟩, hfail⟩, hcomp⟩

theorem compute_score_bounds_witness :
    ((0:ℚ) ≤ (RiskMeta.mk (some "complex") (some "high")
        (some (4/5))).sla_risk.getD 0 ∧
      (RiskMeta.mk (some "complex") (some "high")
        (some (4/5))).sla_risk.getD 0 ≤ 1) ∧
    (0 ≤ histFailureRate none ∧ histFailureRate none ≤ 1) ∧
    (∃ s, compute_score (3/10) (1/5) (3/10) (1/5) "t"
        ⟨some "complex", some "high", some (4/5)⟩ none = some s ∧
      (0 ≤ s.sla_risk ∧ s.sla_risk ≤ 1) ∧
      (0 ≤ s.complexity ∧ s.complexity ≤ 1) ∧
      (0 ≤ s.impact ∧ s.impact ≤ 1) ∧
      (0 ≤ s.failure_rate ∧ s.failure_rate ≤ 1) ∧
      (0 ≤ s.composite_score ∧ s.composite_score ≤ 1)) :=
  ⟨by norm_num, ⟨by norm_num [histFailureRate], by norm_num [histFailureRate]⟩,
   compute_score_bounds (3/10) (1/5) (3/10) (1/5) "t"
    ⟨some "complex", some "high", some (4/5)⟩ none (by norm_num)
    (by norm_num [histFailureRate])⟩

/-- C8 counterexample: with metadata `sla_risk = 2.0` the `RiskScore`
constructor check fails and `compute_score` raises (returns `none`), so
the claim that every input yields components in [0,1] with no raise is
false. -/
theorem compute_score_raises_counterexample :
    compute_score (3/10) (1/5) (3/10) (1/5) "t" ⟨none, none, some 2⟩ none
      = none := by
  simp only [compute_score, riskScoreValid, complexityMap, impactMap,
    histFailureRate]
  norm_num

theorem attempt_retry_strategy (t : String) (s : ExecutionStep) (n : Nat)
    (e : Option (ExecutionStep → Except String Bool)) :
    (attempt_retry t s n e).strategy = "retry" := by
  unfold attempt_retry
  cases e with
  | none => rfl
  | some f =>
    cases h2 : f s with
    | error m => simp [h2]
    | ok b => cases b <;> simp [h2]

theorem attempt_alternative_strategy (t : String) (s a : ExecutionStep)
    (n : Nat) (e : Option (ExecutionStep → Except String Bool)) :
    (attempt_alternative t s a n e).strategy = "alternative" := by
  unfold attempt_alternative
  cases e with
  | none => rfl
  | some f =>
    cases h2 : f a with
    | error m => simp [h2]
    | ok b => cases b <;> simp [h2]

theorem attempt_partial_strategy (t : String) (s : ExecutionStep) (n : Nat)
    (g : Option ExecutionGraph) :
    ( attempt_partial t s n g).strategy = "partial" := by
  unfold attempt_partial
  cases g with
  | none => rfl
  | some gr =>
    by_cases h : (gr.steps.filter (fun st => st.status == "completed")).isEmpty
    · simp [h]
    · simp [h]


/-- C9: `recover` makes at most `max_recovery_attempts` attempts, stops at
the first success (every attempt before the last one failed), the
strategies appear in the order retry, alternative, partial without
repetition, and an alternative attempt occurs only when the failed step
names an alternative present in the graph. -/
theorem recover_cascade (max_attempts : Nat) (task_id : String)
    (failed_step : ExecutionStep) (graph : Option ExecutionGraph)
    (execute_fn : Option (ExecutionStep → Except String Bool)) :
    (recover max_attempts task_id failed_step graph execute_fn).length
        ≤ max_attempts ∧
    (∀ a ∈ (recover max_attempts task_id failed_step graph
        execute_fn).dropLast, a.outcome ≠ "success") ∧
    ((recover max_attempts task_id failed_step graph execute_fn).map
        (fun a => a.strategy)).Sublist
      ["retry", "alternative", "partial"] ∧
    ("alternative" ∈ (recover max_attempts task_id failed_step graph
        execute_fn).map (fun a => a.strategy) →
      ∃ g, graph = some g ∧ find_alternative failed_step g ≠ none) := by
  unfold recover
  by_cases hmax : 0 < max_attempts
  case neg =>
    have hm0 : max_attempts = 0 := by omega
    subst hm0
    have hempty : recover_stage2 0 task_id failed_step graph execute_fn 0 []
        = [] := by
      unfold recover_stage2 recover_stage3
      cases graph <;> simp
    simp [hempty]
  case pos =>
    simp only [if_pos hmax]
    by_cases h1 : (attempt_retry task_id failed_step 1
        execute_fn).outcome = "success"
    · simp only [if_pos h1]
      refine ⟨by simpa using hmax, by simp, ?_, ?_⟩
      · simp only [List.map_cons, List.map_nil, attempt_retry_strategy]
        decide
      · intro hmem
        simp [attempt_retry_strategy] at hmem
    · simp only [if_neg h1]
      unfold recover_stage2
      cases graph with
      | none =>
        dsimp only
        unfold recover_stage3
        by_cases h2 : 1 < max_attempts
        · simp only [if_pos h2]
          refine ⟨by simpa using h2, ?_, ?_, ?_⟩
          · intro a ha
            simp at ha
            rw [ha]
            exact h1
          · simp only [List.cons_append, List.nil_append, List.map_cons,
              List.map_nil, attempt_retry_strategy,
              attempt_partial_strategy]
            decide
          · intro hmem
            simp [attempt_retry_strategy, attempt_partial_strategy] at hmem
        · simp only [if_neg h2]
          refine ⟨by simpa using hmax, by simp, ?_, ?_⟩
          · simp only [List.map_cons, List.map_nil, attempt_retry_strategy]
            decide
          · intro hmem
            simp [attempt_retry_strategy] at hmem
      | some g =>
        dsimp only
        by_cases h2 : 1 < max_attempts
        · simp only [if_pos h2]
          cases halt : find_alternative failed_step g with
          | none =>
            dsimp only
            unfold recover_stage3
            simp only [if_pos h2]
            refine ⟨by simpa using h2, ?_, ?_, ?_⟩
            · intro a ha
              simp at ha
              rw [ha]
              exact h1
            · simp only [List.cons_append, List.nil_append, List.map_cons,
                List.map_nil, attempt_retry_strategy,
                attempt_partial_strategy]
              decide
            · intro hmem
              simp [attempt_retry_strategy, attempt_partial_strategy]
                at hmem
          | some alt =>
            dsimp only
            simp only [Nat.reduceAdd]
            by_cases h3 : (attempt_alternative task_id failed_step alt 2
                execute_fn).outcome = "success"
            · simp only [if_pos h3]
              refine ⟨by simpa using h2, ?_, ?_, ?_⟩
              · intro a ha
                simp at ha
                rw [ha]
                exact h1
              · simp only [List.cons_append, List.nil_append,
                  List.map_cons, List.map_nil, attempt_retry_strategy,
                  attempt_alternative_strategy]
                decide
              · intro _
                exact ⟨g, rfl, by rw [halt]; simp⟩
            · simp only [if_neg h3]
              unfold recover_stage3
              by_cases h4 : 2 < max_attempts
              · simp only [if_pos h4]
                refine ⟨by simpa using h4, ?_, ?_, ?_⟩
                · intro a ha
                  simp at ha
                  rcases ha with ha | ha
                  · rw [ha]; exact h1
                  · rw [ha]; exact h3
                · simp only [List.cons_append, List.nil_append,
                    List.map_cons, List.map_nil, attempt_retry_strategy,
                    attempt_alternative_strategy, attempt_partial_strategy]
                  decide
                · intro _
                  exact ⟨g, rfl, by rw [halt]; simp⟩
              · simp only [if_neg h4]
                refine ⟨by simpa using h2, ?_, ?_, ?_⟩
                · intro a ha
                  simp at ha
                  rw [ha]
                  exact h1
                · simp only [List.cons_append, List.nil_append,
                    List.map_cons, List.map_nil, attempt_retry_strategy,
                    attempt_alternative_strategy]
                  decide
                · intro _
                  exact ⟨g, rfl, by rw [halt]; simp⟩
        · simp only [if_neg h2]
          unfold recover_stage3
          simp only [if_neg h2]
          refine ⟨by simpa using hmax, by simp, ?_, ?_⟩
          · simp only [List.map_cons, List.map_nil, attempt_retry_strategy]
            decide
          · intro hmem
            simp [attempt_retry_strategy] at hmem

theorem erase_keys_mem (l : List (Nat × ConcurrencySlot)) (sid k : Nat)
    (hk : k ≠ sid) :
    (k ∈ (l.eraseP (fun p => p.1 == sid)).map Prod.fst ↔
      k ∈ l.map Prod.fst) := by
  induction l with
  | nil => simp
  | cons q tl ih =>
    by_cases hq : q.1 = sid
    · rw [List.eraseP_cons_of_pos (by simpa using hq)]
      simp only [List.map_cons, List.mem_cons]
      constructor
      · intro h
        exact Or.inr h
      · rintro (h | h)
        · exact absurd (h.trans hq) hk
        · exact h
    · rw [List.eraseP_cons_of_neg (by simpa using hq)]
      simp only [List.map_cons, List.mem_cons, ih]

theorem release_inv (s : CCState) (sid : Nat) (hinv : CCInv s)
    (hmem : s.active_slots.any (fun p => p.1 == sid) = true) :
    CCInv (release sid s) := by
  obtain ⟨hsum, hnodup, hbound⟩ := hinv
  obtain ⟨p, hp, hps⟩ := List.any_eq_true.mp hmem
  have hlen : (s.active_slots.eraseP (fun p => p.1 == sid)).length
      = s.active_slots.length - 1 :=
    List.length_eraseP_of_mem hp hps
  have hpos : 1 ≤ s.active_slots.length := List.length_pos.mpr
    (List.ne_nil_of_mem hp)
  have hsub : (s.active_slots.eraseP (fun p => p.1 == sid)).Sublist
      s.active_slots := List.eraseP_sublist _
  refine ⟨?_, ?_, ?_⟩
  · simp only [release, hlen]
    omega
  · exact List.Nodup.sublist (hsub.map Prod.fst) hnodup
  · intro k hkmem
    exact hbound k ((hsub.map Prod.fst).subset hkmem)

theorem statusMap_keys (l : List (Nat × ConcurrencySlot))
    (P : Nat × ConcurrencySlot → Prop) [DecidablePred P]
    (g : Nat × ConcurrencySlot → ConcurrencySlot) :
    (l.map (fun p => if P p then (p.1, g p) else p)).map Prod.fst
      = l.map Prod.fst := by
  induction l with
  | nil => rfl
  | cons q tl ih =>
    simp only [List.map_cons, ih]
    by_cases h : P q <;> simp [h]

theorem statusMap_inv (s : CCState) (P : Nat × ConcurrencySlot → Prop)
    [DecidablePred P] (g : Nat × ConcurrencySlot → ConcurrencySlot)
    (hinv : CCInv s) :
    CCInv { s with active_slots := (s.active_slots.map
      (fun p => if P p then (p.1, g p) else p)) } := by
  obtain ⟨hsum, hnodup, hbound⟩ := hinv
  refine ⟨?_, ?_, ?_⟩
  · show s.permits + (s.active_slots.map
      (fun p => if P p then (p.1, g p) else p)).length = s.maxParallel
    rw [List.length_map]
    exact hsum
  · show ((s.active_slots.map
      (fun p => if P p then (p.1, g p) else p)).map Prod.fst).Nodup
    rw [statusMap_keys]
    exact hnodup
  · intro k hk
    show k < s.next_slot_id
    rw [show ({ s with active_slots := (s.active_slots.map
        (fun p => if P p then (p.1, g p) else p)) } : CCState).active_slots
      = s.active_slots.map (fun p => if P p then (p.1, g p) else p)
      from rfl, statusMap_keys] at hk
    exact hbound k hk

theorem releases_fold_inv (todo : List (Nat × String)) :
    ∀ (st : CCState), CCInv st →
    (todo.map Prod.fst).Nodup →
    (∀ pr ∈ todo, pr.1 ∈ st.active_slots.map Prod.fst) →
    CCInv (todo.foldl (fun st2 pr => release pr.1 st2) st) := by
  induction todo with
  | nil => intro st hinv _ _; exact hinv
  | cons hd tl ih =>
    intro st hinv hnodup hmems
    simp only [List.foldl_cons]
    have hhd := hmems hd (List.mem_cons_self hd tl)
    have hany : st.active_slots.any (fun p => p.1 == hd.1) = true := by
      rw [List.any_eq_true]
      simp only [List.mem_map] at hhd
      obtain ⟨p, hp, hp1⟩ := hhd
      exact ⟨p, hp, by simpa using hp1⟩
    apply ih (release hd.1 st) (release_inv st hd.1 hinv hany)
    · exact (List.nodup_cons.mp (by simpa using hnodup)).2
    · intro pr hpr
      have hne : pr.1 ≠ hd.1 := by
        simp only [List.map_cons, List.nodup_cons] at hnodup
        intro hc
        exact hnodup.1 (hc ▸ List.mem_map_of_mem Prod.fst hpr)
      rw [show (release hd.1 st).active_slots
          = st.active_slots.eraseP (fun p => p.1 == hd.1) from rfl]
      rw [erase_keys_mem _ _ _ hne]
      exact hmems pr (List.mem_cons_of_mem hd hpr)

theorem check_timeouts_inv (now : ℚ) (s : CCState) (hinv : CCInv s) :
    CCInv (check_timeouts now s).2 := by
  have hnodup := hinv.2.1
  unfold check_timeouts
  apply releases_fold_inv
  · exact statusMap_inv s (fun p => p.2.timeout_at ≤ now)
      (fun p => { p.2 with status := "timed_out" }) hinv
  · rw [List.map_map]
    rw [show ((s.active_slots.filter
          (fun p => decide (p.2.timeout_at ≤ now))).map
        (Prod.fst ∘ fun p => (p.1, p.2.task_id)))
        = (s.active_slots.filter
            (fun p => decide (p.2.timeout_at ≤ now))).map Prod.fst from rfl]
    have hsubl : (s.active_slots.filter
        (fun p => decide (p.2.timeout_at ≤ now))).Sublist s.active_slots :=
      List.filter_sublist s.active_slots
    exact List.Nodup.sublist (hsubl.map Prod.fst) hnodup
  · intro pr hpr
    simp only [List.mem_map, List.mem_filter] at hpr
    obtain ⟨p, ⟨hpmem, _⟩, rfl⟩ := hpr
    rw [show ({ s with active_slots := (s.active_slots.map (fun p =>
        if p.2.timeout_at ≤ now then (p.1, { p.2 with status := "timed_out" })
        else p)) } : CCState).active_slots
      = s.active_slots.map (fun p =>
        if p.2.timeout_at ≤ now then (p.1, { p.2 with status := "timed_out" })
        else p) from rfl]
    rw [statusMap_keys s.active_slots (fun p => p.2.timeout_at ≤ now)
      (fun p => { p.2 with status := "timed_out" })]
    exact List.mem_map_of_mem Prod.fst hpmem

theorem ccStep_inv (s : CCState) (op : CCOp) (hinv : CCInv s)
    (hok : (match op with
      | CCOp.release sid => s.active_slots.any (fun p => p.1 == sid)
      | CCOp.complete sid => s.active_slots.any (fun p => p.1 == sid)
      | _ => true) = true) :
    CCInv (ccStep s op) := by
  obtain ⟨hsum, hnodup, hbound⟩ := hinv
  cases op with
  | acquire now tid =>
    simp only [ccStep, acquire]
    by_cases h0 : s.permits = 0
    · simpa [h0] using ⟨hsum, hnodup, hbound⟩
    · simp only [if_neg h0]
      refine ⟨?_, ?_, ?_⟩
      · show s.permits - 1 + (s.active_slots
          ++ [(s.next_slot_id, ConcurrencySlot.mk s.next_slot_id tid now
            (now + s.timeoutMinutes) "active")]).length = s.maxParallel
        simp only [List.length_append, List.length_cons, List.length_nil]
        omega
      · simp only [List.map_append, List.map_cons, List.map_nil]
        rw [List.nodup_append]
        refine ⟨hnodup, List.nodup_singleton _, ?_⟩
        intro a ha hb
        rw [List.mem_singleton] at hb
        subst hb
        exact absurd (hbound _ ha) (by omega)
      · intro k hk
        show k < s.next_slot_id + 1
        simp only [List.map_append, List.map_cons, List.map_nil,
          List.mem_append, List.mem_singleton] at hk
        rcases hk with hk | hk
        · have := hbound k hk
          omega
        · omega
  | release sid => exact release_inv s sid ⟨hsum, hnodup, hbound⟩ hok
  | complete sid =>
    simp only [ccStep, complete]
    apply release_inv
    · exact statusMap_inv s (fun p => p.1 = sid)
        (fun p => { p.2 with status := "completed" }) ⟨hsum, hnodup, hbound⟩
    · rw [List.any_eq_true] at hok ⊢
      obtain ⟨p, hp, hps⟩ := hok
      refine ⟨(if p.1 = sid then (p.1, { p.2 with status := "completed" })
        else p), List.mem_map_of_mem _ hp, ?_⟩
      by_cases h : p.1 = sid
      · simp [h]
      · simp only [if_neg h]
        exact hps
  | queue tid r => exact ⟨hsum, hnodup, hbound⟩
  | dequeue =>
    simp only [ccStep, dequeue]
    cases s.queue <;> exact ⟨hsum, hnodup, hbound⟩
  | check_timeouts now =>
    exact check_timeouts_inv now s ⟨hsum, hnodup, hbound⟩

theorem ccRun_inv (ops : List CCOp) : ∀ (s : CCState), CCInv s →
    ccValidTrace s ops = true → CCInv (ccRun s ops) := by
  induction ops with
  | nil => intro s hinv _; exact hinv
  | cons op rest ih =>
    intro s hinv hvt
    unfold ccValidTrace at hvt
    rw [Bool.and_eq_true] at hvt
    exact ih (ccStep s op) (ccStep_inv s op hinv hvt.1) hvt.2

/-- C1 (amended): over every operation sequence in which `release` and
`complete` only target a then-active slot id, `get_active_count` never
exceeds `max_parallel_tasks`, and `acquire` returns `None` and leaves the
state unchanged whenever the capacity is fully in use. -/
theorem concurrency_bound (mp : Nat) (tm : ℚ) (ops : List CCOp)
    (hvalid : ccValidTrace (CCState.init mp tm) ops = true) :
    get_active_count (ccRun (CCState.init mp tm) ops) ≤ mp ∧
    (∀ (now : ℚ) (tid : String),
      get_active_count (ccRun (CCState.init mp tm) ops) = mp →
      (acquire now tid (ccRun (CCState.init mp tm) ops)).1 = none ∧
      (acquire now tid (ccRun (CCState.init mp tm) ops)).2
        = ccRun (CCState.init mp tm) ops) := by
  have hinit : CCInv (CCState.init mp tm) := by
    refine ⟨by simp [CCState.init], by simp [CCState.init], ?_⟩
    intro k hk
    simp [CCState.init] at hk
  have hrun := ccRun_inv ops (CCState.init mp tm) hinit hvalid
  obtain ⟨hsum, _, _⟩ := hrun
  have hmax : (ccRun (CCState.init mp tm) ops).maxParallel = mp := by
    have hstep : ∀ (s : CCState) (op : CCOp),
        (ccStep s op).maxParallel = s.maxParallel := by
      intro s op
      cases op with
      | acquire now tid =>
        simp only [ccStep, acquire]
        by_cases h0 : s.permits = 0 <;> simp [h0]
      | release sid => rfl
      | complete sid => rfl
      | queue tid r => rfl
      | dequeue =>
        simp only [ccStep, dequeue]
        cases s.queue <;> rfl
      | check_timeouts now =>
        simp only [ccStep, check_timeouts]
        have : ∀ (todo : List (Nat × String)) (st : CCState),
            (todo.foldl (fun st2 pr => release pr.1 st2) st).maxParallel
              = st.maxParallel := by
          intro todo
          induction todo with
          | nil => intro st; rfl
          | cons hd tl ih2 => intro st; simp only [List.foldl_cons, ih2]; rfl
        rw [this]
    have hall : ∀ (l : List CCOp) (s : CCState),
        (ccRun s l).maxParallel = s.maxParallel := by
      intro l
      induction l with
      | nil => intro s; rfl
      | cons op rest ih2 =>
        intro s
        unfold ccRun
        rw [List.foldl_cons]
        have := ih2 (ccStep s op)
        unfold ccRun at this
        rw [this, hstep]
    rw [hall]
    rfl
  rw [hmax] at hsum
  constructor
  · unfold get_active_count
    omega
  · intro now tid hfull
    unfold get_active_count at hfull
    have hperm : (ccRun (CCState.init mp tm) ops).permits = 0 := by omega
    unfold acquire
    rw [if_pos hperm]
    exact ⟨rfl, rfl⟩

theorem concurrency_bound_witness :
    ccValidTrace (CCState.init 2 15)
      [CCOp.acquire 0 "A", CCOp.acquire 0 "B", CCOp.release 0,
       CCOp.complete 1, CCOp.queue "D" (3/10), CCOp.dequeue,
       CCOp.check_timeouts 100] = true ∧
    (get_active_count (ccRun (CCState.init 2 15)
      [CCOp.acquire 0 "A", CCOp.acquire 0 "B", CCOp.release 0,
       CCOp.complete 1, CCOp.queue "D" (3/10), CCOp.dequeue,
       CCOp.check_timeouts 100]) ≤ 2 ∧
    (∀ (now : ℚ) (tid : String),
      get_active_count (ccRun (CCState.init 2 15)
        [CCOp.acquire 0 "A", CCOp.acquire 0 "B", CCOp.release 0,
         CCOp.complete 1, CCOp.queue "D" (3/10), CCOp.dequeue,
         CCOp.check_timeouts 100]) = 2 →
      (acquire now tid (ccRun (CCState.init 2 15)
        [CCOp.acquire 0 "A", CCOp.acquire 0 "B", CCOp.release 0,
         CCOp.complete 1, CCOp.queue "D" (3/10), CCOp.dequeue,
         CCOp.check_timeouts 100])).1 = none ∧
      (acquire now tid (ccRun (CCState.init 2 15)
        [CCOp.acquire 0 "A", CCOp.acquire 0 "B", CCOp.release 0,
         CCOp.complete 1, CCOp.queue "D" (3/10), CCOp.dequeue,
         CCOp.check_timeouts 100])).2
        = ccRun (CCState.init 2 15)
          [CCOp.acquire 0 "A", CCOp.acquire 0 "B", CCOp.release 0,
           CCOp.complete 1, CCOp.queue "D" (3/10), CCOp.dequeue,
           CCOp.check_timeouts 100])) :=
  ⟨by decide, concurrency_bound 2 15
    [CCOp.acquire 0 "A", CCOp.acquire 0 "B", CCOp.release 0,
     CCOp.complete 1, CCOp.queue "D" (3/10), CCOp.dequeue,
     CCOp.check_timeouts 100] (by decide)⟩

/-- C1 counterexample: releasing the same slot id twice inflates the
semaphore beyond the configured capacity, after which two more acquires
both succeed and `get_active_count` exceeds `max_parallel_tasks = 1`; the
claim as stated (over every operation sequence) is false. -/
theorem concurrency_bound_counterexample :
    get_active_count (ccRun (CCState.init 1 15)
      [CCOp.acquire 0 "A", CCOp.release 0, CCOp.release 0,
       CCOp.acquire 0 "B", CCOp.acquire 0 "C"]) = 2 ∧
    ¬ (2 ≤ 1) := by
  constructor
  · decide
  · omega

/-- The fold implementing `max(scores, key=scores.get)` returns an element
of the candidate list whose score bounds every candidate's score. -/
theorem pickMax_fold_spec (rest : List (String × Nat)) : ∀ x : String × Nat,
    ((rest.foldl pickMax x) = x ∨ (rest.foldl pickMax x) ∈ rest) ∧
      x.2 ≤ (rest.foldl pickMax x).2 ∧
      ∀ q ∈ rest, q.2 ≤ (rest.foldl pickMax x).2 := by
  induction rest with
  | nil => intro x; simp
  | cons c tl ih =>
    intro x
    simp only [List.foldl_cons]
    obtain ⟨hmem, hx, hall⟩ := ih (pickMax x c)
    have hxc : x.2 ≤ (pickMax x c).2 ∧ c.2 ≤ (pickMax x c).2 := by
      simp only [pickMax]; split_ifs <;> omega
    refine ⟨?_, le_trans hxc.1 hx, ?_⟩
    · rcases hmem with h | h
      · rw [h]
        simp only [pickMax]
        split_ifs
        · exact Or.inr (List.mem_cons_self c tl)
        · exact Or.inl rfl
      · exact Or.inr (List.mem_cons_of_mem c h)
    · intro q hq
      rcases List.mem_cons.mp hq with h | h
      · subst h; exact le_trans hxc.2 hx
      · exact hall q h

/-- C7: counterexample to the claim's occurrence-count wording. On content
"data data file" the data keyword set has the strictly largest total
occurrence count (the keyword data occurs twice), yet `_extract_task_type`
returns "document": the source counts each keyword at most once (presence,
not occurrences) and breaks the resulting tie by dictionary insertion
order, where document precedes data. -/
theorem extract_task_type_counterexample :
    extract_task_type "data data file" = "document" ∧
    specOccurrenceScore (toLowerStr "data data file") (keywordsOf "document") <
      specOccurrenceScore (toLowerStr "data data file") (keywordsOf "data") := by
  decide

/-- C7 (amended): `_extract_task_type` scores each of the five fixed
keyword sets by the number of its keywords present as substrings of the
case-folded content; it returns "general" when every set scores zero, and
otherwise the name of a set with positive, maximal presence score (ties
broken deterministically by the fixed set order). -/
theorem extract_task_type_argmax (content : String) :
    (extract_task_type content = "general" ∧
      ∀ p ∈ TYPE_KEYWORDS, presenceScore (toLowerStr content) p.2 = 0) ∨
    (∃ p ∈ TYPE_KEYWORDS, extract_task_type content = p.1 ∧
      0 < presenceScore (toLowerStr content) p.2 ∧
      ∀ q ∈ TYPE_KEYWORDS,
        presenceScore (toLowerStr content) q.2 ≤
          presenceScore (toLowerStr content) p.2) := by
  set g : String × List String → Nat :=
    fun p => presenceScore (toLowerStr content) p.2 with hg
  have hext : extract_task_type content =
      (match TYPE_KEYWORDS.filterMap
          (fun p => if 0 < g p then some (p.1, g p) else none) with
       | [] => "general"
       | x :: rest => (rest.foldl pickMax x).1) := rfl
  cases hs : TYPE_KEYWORDS.filterMap
      (fun p => if 0 < g p then some (p.1, g p) else none) with
  | nil =>
    left
    refine ⟨by rw [hext, hs], ?_⟩
    intro p hp
    have hnone := (List.filterMap_eq_nil.mp hs) p hp
    by_contra hne
    have hpos : 0 < g p := Nat.pos_of_ne_zero hne
    simp [hpos] at hnone
  | cons x rest =>
    right
    obtain ⟨hmem, hx2, hall⟩ := pickMax_fold_spec rest x
    have hrmem : (rest.foldl pickMax x) ∈ TYPE_KEYWORDS.filterMap
        (fun p => if 0 < g p then some (p.1, g p) else none) := by
      rw [hs]
      rcases hmem with h | h
      · rw [h]; exact List.mem_cons_self x rest
      · exact List.mem_cons_of_mem x h
    obtain ⟨p, hpL, hfp⟩ := List.mem_filterMap.mp hrmem
    by_cases hpos : 0 < g p
    · simp only [if_pos hpos] at hfp
      have hfold : rest.foldl pickMax x = (p.1, g p) := (Option.some.inj hfp).symm
      refine ⟨p, hpL, ?_, hpos, ?_⟩
      · rw [hext, hs]
        exact congrArg Prod.fst hfold
      · intro q hq
        by_cases hq0 : 0 < g q
        · have hqmem : (q.1, g q) ∈ TYPE_KEYWORDS.filterMap
              (fun p => if 0 < g p then some (p.1, g p) else none) :=
            List.mem_filterMap.mpr ⟨q, hq, by simp [hq0]⟩
          rw [hs] at hqmem
          have hle : g q ≤ (rest.foldl pickMax x).2 := by
            rcases List.mem_cons.mp hqmem with h | h
            · have h2 : g q = x.2 := congrArg Prod.snd h
              rw [h2]; exact hx2
            · exact hall _ h
          rw [hfold] at hle
          exact hle
        · show g q ≤ g p
          omega
    · simp [hpos] at hfp

/-- Every entry `_check_permissions` appends is a gate_blocked record of
the permission gate with a "blocked:" detail. -/
theorem check_permissions_entries (cfg : ClassifierConfig)
    (env : ClassifierEnv) (content : String) (steps : List String) :
    ∀ e ∈ (check_permissions cfg env content steps).2,
      e.op = "gate_blocked" ∧ e.src = "permission_gate" ∧
        ∃ d, e.detail = "blocked:" ++ d := by
  intro e he
  simp only [check_permissions] at he
  split_ifs at he
  · simp only [log_gate_blocked, List.mem_singleton] at he
    subst he
    exact ⟨rfl, rfl, "network_not_allowed", rfl⟩
  · simp only [log_gate_blocked, List.mem_singleton] at he
    subst he
    exact ⟨rfl, rfl, "service_not_in_allowlist", rfl⟩
  · split at he
    · simp at he
    · split at he
      · simp at he
      · simp only [log_gate_blocked, List.mem_singleton] at he
        subst he
        exact ⟨rfl, rfl, _, rfl⟩

/-- `_check_permissions` appends an entry exactly when it fails. -/
theorem check_permissions_log_iff (cfg : ClassifierConfig)
    (env : ClassifierEnv) (content : String) (steps : List String) :
    (check_permissions cfg env content steps).1 =
      (check_permissions cfg env content steps).2.isEmpty := by
  simp only [check_permissions]
  split_ifs
  · rfl
  · rfl
  · split
    · rfl
    · split
      · rfl
      · rfl

/-- Every entry `_check_sla_feasibility` appends is a gate_blocked record
of the SLA gate with a "blocked:" detail. -/
theorem check_sla_entries (cfg : ClassifierConfig) (complexity : String)
    (log : List OpsEntry) :
    ∀ e ∈ (check_sla_feasibility cfg complexity log).2,
      e.op = "gate_blocked" ∧ e.src = "sla_feasibility" ∧
        ∃ d, e.detail = "blocked:" ++ d := by
  intro e he
  simp only [check_sla_feasibility] at he
  split at he
  · simp at he
  · split_ifs at he <;>
      first
        | exact absurd he (List.not_mem_nil e)
        | (simp only [log_gate_blocked, List.mem_singleton] at he
           subst he
           exact ⟨rfl, rfl, _, rfl⟩)

/-- `_check_sla_feasibility` appends an entry exactly when it fails. -/
theorem check_sla_log_iff (cfg : ClassifierConfig) (complexity : String)
    (log : List OpsEntry) :
    (check_sla_feasibility cfg complexity log).1 =
      (check_sla_feasibility cfg complexity log).2.isEmpty := by
  simp only [check_sla_feasibility]
  split
  · rfl
  · split_ifs <;> rfl

/-- Every entry `_check_rollback_readiness` appends is a gate_blocked
record of the rollback gate with a "blocked:" detail. -/
theorem check_rollback_entries (env : ClassifierEnv) :
    ∀ e ∈ (check_rollback_readiness env).2,
      e.op = "gate_blocked" ∧ e.src = "rollback_readiness" ∧
        ∃ d, e.detail = "blocked:" ++ d := by
  intro e he
  simp only [check_rollback_readiness] at he
  split at he
  · simp at he
  · split_ifs at he
    · simp at he
    · simp only [log_gate_blocked, List.mem_singleton] at he
      subst he
      exact ⟨rfl, rfl, "rollback_archive_missing", rfl⟩

/-- `_check_rollback_readiness` appends an entry exactly when it fails. -/
theorem check_rollback_log_iff (env : ClassifierEnv) :
    (check_rollback_readiness env).1 =
      (check_rollback_readiness env).2.isEmpty := by
  simp only [check_rollback_readiness]
  split
  · rfl
  · split_ifs
    · rfl
    · rfl

/-- C5: code_bug evidence. For every call of `PlanningEngine.decompose`
(with a logger attached) that returns a graph, the audit entries the call
appends consist of exactly one entry, and its op tag is "risk_scored" —
not the "plan_generated" tag the specification's audit vocabulary
demands. The source's `_log_decomposition` hard-codes
`op="risk_scored"` although the planner computes no risk score. -/
theorem decompose_emits_risk_scored
    (learning : Option (String → Option LearningMetrics))
    (content : String) (ty : Option String) (tid : String)
    (g : ExecutionGraph) (es : List OpsEntry)
    (h : decompose learning content ty tid = some (g, es)) :
    es.map OpsEntry.op = ["risk_scored"] := by
  simp only [decompose] at h
  split_ifs at h
  all_goals
    first
      | exact Option.noConfusion h
      | (have h' := Option.some.inj h
         obtain ⟨-, rfl⟩ : _ ∧ _ = es :=
           ⟨congrArg Prod.fst h', congrArg Prod.snd h'⟩
         simp [log_decomposition])

theorem decompose_emits_risk_scored_witness :
    ∃ r, decompose none "Create summary report" none "t1.md" = some r ∧
      r.2.map OpsEntry.op = ["risk_scored"] := by
  cases hr : decompose none "Create summary report" none "t1.md" with
  | none => exact absurd hr (by decide)
  | some r =>
    exact ⟨r, rfl, decompose_emits_risk_scored none "Create summary report"
      none "t1.md" r.1 r.2 hr⟩

/-- C6 (amended): with a logger attached and no override, only the
permission, SLA-feasibility and rollback-readiness gates (gates 4-6) emit
gate_blocked audit entries, always with a "blocked:"-prefixed reason in
detail; failures of the step-count, credential and determinism gates
(gates 1-3) append nothing to the log. -/
theorem gate_blocked_audit (cfg : ClassifierConfig) (env : ClassifierEnv)
    (content : String) (steps : List String) (md : Option TaskMeta)
    (log : List OpsEntry) :
    (∀ e ∈ (classify cfg env content steps md log).2.drop log.length,
      e.op = "gate_blocked" ∧
      e.src ∈ (["permission_gate", "sla_feasibility",
        "rollback_readiness"] : List String) ∧
      ∃ d, e.detail = "blocked:" ++ d) ∧
    ((match md with | some m => m.override | none => false) = false →
      MAX_COMPLEX_STEPS < count_actionable_steps steps →
      (classify cfg env content steps md log).2 = log) ∧
    ((match md with | some m => m.override | none => false) = false →
      count_actionable_steps steps ≤ MAX_COMPLEX_STEPS →
      check_credentials content steps = false →
      (classify cfg env content steps md log).2 = log) ∧
    ((match md with | some m => m.override | none => false) = false →
      count_actionable_steps steps ≤ MAX_COMPLEX_STEPS →
      check_credentials content steps = true →
      check_determinism steps = false →
      (classify cfg env content steps md log).2 = log) ∧
    ((match md with | some m => m.override | none => false) = false →
      count_actionable_steps steps ≤ MAX_COMPLEX_STEPS →
      check_credentials content steps = true →
      check_determinism steps = true →
      (check_permissions cfg env content steps).1 = false →
      (classify cfg env content steps md log).2 =
          log ++ (check_permissions cfg env content steps).2 ∧
        (check_permissions cfg env content steps).2 ≠ []) ∧
    ((match md with | some m => m.override | none => false) = false →
      count_actionable_steps steps ≤ MAX_COMPLEX_STEPS →
      check_credentials content steps = true →
      check_determinism steps = true →
      (check_permissions cfg env content steps).1 = true →
      (check_sla_feasibility cfg
        (if count_actionable_steps steps ≤ MAX_SIMPLE_STEPS then "simple"
          else "complex") log).1 = false →
      (classify cfg env content steps md log).2 =
          log ++ (check_sla_feasibility cfg
            (if count_actionable_steps steps ≤ MAX_SIMPLE_STEPS then
              "simple" else "complex") log).2 ∧
        (check_sla_feasibility cfg
          (if count_actionable_steps steps ≤ MAX_SIMPLE_STEPS then "simple"
            else "complex") log).2 ≠ []) ∧
    ((match md with | some m => m.override | none => false) = false →
      count_actionable_steps steps ≤ MAX_COMPLEX_STEPS →
      ¬ (count_actionable_steps steps ≤ MAX_SIMPLE_STEPS) →
      check_credentials content steps = true →
      check_determinism steps = true →
      (check_permissions cfg env content steps).1 = true →
      (check_sla_feasibility cfg "complex" log).1 = true →
      (check_rollback_readiness env).1 = false →
      (classify cfg env content steps md log).2 =
          log ++ (check_rollback_readiness env).2 ∧
        (check_rollback_readiness env).2 ≠ []) := by
  refine ⟨?_, ?_, ?_, ?_, ?_, ?_, ?_⟩
  · intro e he
    simp only [classify] at he
    split_ifs at he <;>
      simp [List.drop_left, List.drop_length] at he
    all_goals
      first
        | exact absurd he (List.not_mem_nil e)
        | exact (fun r => ⟨r.1, by rw [r.2.1]; simp, r.2.2⟩)
            (check_permissions_entries cfg env content steps e he)
        | exact (fun r => ⟨r.1, by rw [r.2.1]; simp, r.2.2⟩)
            (check_sla_entries cfg "simple" log e he)
        | exact (fun r => ⟨r.1, by rw [r.2.1]; simp, r.2.2⟩)
            (check_sla_entries cfg "complex" log e he)
        | exact (fun r => ⟨r.1, by rw [r.2.1]; simp, r.2.2⟩)
            (check_rollback_entries env e he)
  · intro hov hgt
    simp [classify, hov, hgt]
  · intro hov hcount hcred
    have h15 : ¬ (MAX_COMPLEX_STEPS < count_actionable_steps steps) :=
      not_lt.mpr hcount
    simp [classify, hov, hcred, h15]
  · intro hov hcount hcred hdet
    have h15 : ¬ (MAX_COMPLEX_STEPS < count_actionable_steps steps) :=
      not_lt.mpr hcount
    simp [classify, hov, h15, hcred, hdet]
  · intro hov hcount hcred hdet hperm
    have h15 : ¬ (MAX_COMPLEX_STEPS < count_actionable_steps steps) :=
      not_lt.mpr hcount
    refine ⟨?_, ?_⟩
    · simp [classify, hov, h15, hcred, hdet, hperm]
    · intro hnil
      have hiff := check_permissions_log_iff cfg env content steps
      rw [hperm, hnil] at hiff
      simp at hiff
  · intro hov hcount hcred hdet hperm hsla
    have h15 : ¬ (MAX_COMPLEX_STEPS < count_actionable_steps steps) :=
      not_lt.mpr hcount
    refine ⟨?_, ?_⟩
    · by_cases hss : count_actionable_steps steps ≤ MAX_SIMPLE_STEPS
      · simp only [if_pos hss] at hsla
        simp [classify, hov, h15, hcred, hdet, hperm, hss, hsla]
      · simp only [if_neg hss] at hsla
        simp [classify, hov, h15, hcred, hdet, hperm, hss, hsla]
    · intro hnil
      have hiff := check_sla_log_iff cfg
        (if count_actionable_steps steps ≤ MAX_SIMPLE_STEPS then "simple"
          else "complex") log
      rw [hsla, hnil] at hiff
      simp at hiff
  · intro hov hcount hss hcred hdet hperm hsla hrb
    have h15 : ¬ (MAX_COMPLEX_STEPS < count_actionable_steps steps) :=
      not_lt.mpr hcount
    refine ⟨?_, ?_⟩
    · simp [classify, hov, h15, hcred, hdet, hperm, hss, hsla, hrb]
    · intro hnil
      have hiff := check_rollback_log_iff env
      rw [hrb, hnil] at hiff
      simp at hiff

theorem gate_blocked_audit_witness :
    (classify ⟨[], 2, 10⟩ ⟨none, true⟩ "use http api" ["call the endpoint"]
        none []).2 =
      [] ++ (check_permissions ⟨[], 2, 10⟩ ⟨none, true⟩ "use http api"
        ["call the endpoint"]).2 ∧
    (check_permissions ⟨[], 2, 10⟩ ⟨none, true⟩ "use http api"
      ["call the endpoint"]).2 ≠ [] :=
  (gate_blocked_audit ⟨[], 2, 10⟩ ⟨none, true⟩ "use http api"
      ["call the endpoint"] none []).2.2.2.2.1 rfl (by decide) (by decide)
    (by decide) (by decide)

/-- C6: counterexample to "every gate that fails emits a gate_blocked
entry": on content referencing a password, the credential gate (gate 2)
fails and the task is classified complex, yet the audit log is unchanged
— gates 1-3 never call `_log_gate_blocked`. -/
theorem gate_blocked_counterexample :
    check_credentials "Use the password manager" ["step one"] = false ∧
    classify ⟨[], 2, 10⟩ ⟨none, true⟩ "Use the password manager"
      ["step one"] none [] = ("complex", []) := by
  decide

end Orchestrator
